import Mathlib

set_option maxHeartbeats 1000000
set_option maxRecDepth 100000

/-!
Verification of the LaTeX-to-HTML conversion core of `simple-latex-parser.js`.

JavaScript strings are modelled as `List Char`; the regex-driven scans of the
source are modelled as explicit fueled scanners over character lists; the
ambient timestamp `Date.now()` is modelled as an explicit clock parameter.
-/

namespace LatexSite

/-- Characters of a JavaScript string. -/
abbrev Str := List Char

/-- Character list of a Lean string literal. -/
def S (s : String) : Str := s.data

/-- Whether `pat` is a leading segment of `s` (an anchored literal match in JS). -/
def startsWith : Str → Str → Bool
  | [], _ => true
  | _ :: _, [] => false
  | p :: ps, c :: cs => p == c && startsWith ps cs

/-- Index of the first occurrence of the literal pattern `pat` in `s`
(JS `String.prototype.search` / `indexOf` with a literal pattern). -/
def firstIdx (pat : Str) : Str → Option Nat
  | [] => if pat.isEmpty then some 0 else none
  | c :: cs => if startsWith pat (c :: cs) then some 0 else (firstIdx pat (cs)).map (· + 1)

/-- JS `String.prototype.substring`: clamps both arguments into the string's
bounds and swaps them when given in descending order. -/
def jsSubstring (s : Str) (a b : Int) : Str :=
  let n : Int := s.length
  let a' := min (max a 0) n
  let b' := min (max b 0) n
  let lo := (min a' b').toNat
  let hi := (max a' b').toNat
  (s.take hi).drop lo

/-- An extracted element as consumed by the splice loop of `convertLaTeXToHTML`:
the recorded start offset into the original text, the exact source substring it
replaces (`element.fullMatch`), and the generated HTML fragment (the value the
loop computes from the element through the per-kind `generate...HTML` function,
which depends only on the element itself). -/
structure SpliceElem where
  startIndex : Nat
  fullMatch : Str
  repl : Str
deriving DecidableEq

/-- One iteration of the splice loop of `convertLaTeXToHTML`: compute the
offset-adjusted position, check that the text present there is exactly the
recorded raw source (`element.fullMatch`), splice the generated fragment in on
success and update the cumulative offset, and skip the element (leaving the
working text and the offset untouched) on mismatch. -/
def spliceStep (acc : Str × Int) (el : SpliceElem) : Str × Int :=
  let html := acc.1
  let offset := acc.2
  let index : Int := el.startIndex + offset
  let textAt := jsSubstring html index (index + el.fullMatch.length)
  if textAt = el.fullMatch then
    let before := jsSubstring html 0 index
    let after := jsSubstring html (index + el.fullMatch.length) html.length
    (before ++ el.repl ++ after, offset + el.repl.length - el.fullMatch.length)
  else
    acc

/-- The splice loop of `convertLaTeXToHTML` over the position-ordered element
list, starting from the original text with cumulative offset `0`. -/
def spliceLoop (text : Str) (els : List SpliceElem) : Str :=
  (els.foldl spliceStep (text, 0)).1

/-- Specification-level splicer (from the spec's words): a single left-to-right
fold that emits the unchanged text between matches and each element's fragment
at its recorded source span. -/
def spliceSpec (text : Str) : Nat → List SpliceElem → Str
  | cursor, [] => text.drop cursor
  | cursor, el :: rest =>
      (text.drop cursor).take (el.startIndex - cursor) ++ el.repl ++
        spliceSpec text (el.startIndex + el.fullMatch.length) rest

/-- Well-formedness of an element list relative to the original text, from
position `cursor` on: elements are ordered by start offset, their source spans
do not overlap, each span lies inside the text, and each recorded raw source
matches the original text at the recorded offsets. -/
def elemsOk (text : Str) : Nat → List SpliceElem → Bool
  | _, [] => true
  | cursor, el :: rest =>
      decide (cursor ≤ el.startIndex) &&
      decide (el.startIndex + el.fullMatch.length ≤ text.length) &&
      decide ((text.drop el.startIndex).take el.fullMatch.length = el.fullMatch) &&
      elemsOk text (el.startIndex + el.fullMatch.length) rest

/-- Open-brace character, written through its code point. -/
def obr : Char := '\x7b'

/-- Close-brace character, written through its code point. -/
def cbr : Char := '\x7d'

/-- A resolved label record: display number, page, title and anchor
(the object stored in `labels[label]` by `parseAuxFile`). -/
structure LabelEntry where
  number : Str
  page : Str
  title : Str
  anchor : Str
deriving DecidableEq

/-- Strip the literal pattern from the front of `s`, returning the remainder. -/
def stripPre : Str → Str → Option Str
  | [], s => some s
  | _ :: _, [] => none
  | p :: ps, c :: cs => if p = c then stripPre ps cs else none

/-- Read characters up to (excluding) the first occurrence of `stop`, also
returning the remainder after it; `none` when `stop` never occurs. This is a
greedy `[^stop]*` capture group followed by the literal `stop`. -/
def readUntil (stop : Char) : Str → Option (Str × Str)
  | [] => none
  | c :: cs =>
      if c = stop then some ([], cs)
      else (readUntil stop cs).map (fun p => (c :: p.1, p.2))

/-- Attempt to match one `\newlabel{NAME}{{NUMBER}{PAGE}{TITLE}{ANCHOR}}` record
(the `labelRegex` of `parseAuxFile`, with the TITLE/ANCHOR pair optional) at the
start of `s`; on success return the record and the remainder after the match.
Missing or empty anchor defaults to the label name, missing title to empty. -/
def matchNewlabelAt (s : Str) : Option ((Str × LabelEntry) × Str) := do
  let r1 ← stripPre (S "\\newlabel\x7b") s
  let (name, r2) ← readUntil cbr r1
  if name.isEmpty then none else
  let r3 ← stripPre (S "\x7b\x7b") r2
  let (number, r4) ← readUntil cbr r3
  let r5 ← stripPre (S "\x7b") r4
  let (page, r6) ← readUntil cbr r5
  match stripPre (S "\x7b") r6 with
  | some r7 =>
    match readUntil cbr r7 with
    | some (title, r8) =>
      match stripPre (S "\x7b") r8 with
      | some r9 =>
        match readUntil cbr r9 with
        | some (anchor, r10) =>
            some ((name, ⟨number, page, title, if anchor.isEmpty then name else anchor⟩), r10)
        | none => some ((name, ⟨number, page, [], name⟩), r6)
      | none => some ((name, ⟨number, page, [], name⟩), r6)
    | none => some ((name, ⟨number, page, [], name⟩), r6)
  | none => some ((name, ⟨number, page, [], name⟩), r6)

/-- Fueled left-to-right scan collecting all `\newlabel` records, continuing
after each match (a JS global-regex `exec` loop). -/
def scanNewlabels : Nat → Str → List (Str × LabelEntry)
  | 0, _ => []
  | _, [] => []
  | fuel + 1, c :: cs =>
    match matchNewlabelAt (c :: cs) with
    | some (r, rest) => r :: scanNewlabels fuel rest
    | none => scanNewlabels fuel cs

/-- All `\newlabel` records of one aux file, in order of occurrence. -/
def parseLabels (content : Str) : List (Str × LabelEntry) :=
  scanNewlabels (content.length + 1) content

/-- Attempt to match one `\@input{FILE}` directive at the start of `s`. -/
def matchInputAt (s : Str) : Option (Str × Str) := do
  let r1 ← stripPre (S "\\@input\x7b") s
  let (f, r2) ← readUntil cbr r1
  if f.isEmpty then none else some (f, r2)

/-- Fueled scan collecting all `\@input` directives in order. -/
def scanInputs : Nat → Str → List Str
  | 0, _ => []
  | _, [] => []
  | fuel + 1, c :: cs =>
    match matchInputAt (c :: cs) with
    | some (f, rest) => f :: scanInputs fuel rest
    | none => scanInputs fuel cs

/-- All `\@input` file names of one aux file, in order of occurrence. -/
def parseInputs (content : Str) : List Str :=
  scanInputs (content.length + 1) content

/-- The empty label table. -/
def emptyLabels : Str → Option LabelEntry := fun _ => none

/-- JS object property assignment `labels[k] = v` on the label table. -/
def setLabel (t : Str → Option LabelEntry) (k : Str) (v : LabelEntry) :
    Str → Option LabelEntry :=
  fun x => if x = k then some v else t x

/-- The label-table construction of `parseAuxFile`: records of the primary aux
file, then, for each `\@input{FILE}` directive of the primary file whose target
exists, the records of that file — merged into one flat table by repeated
assignment. File contents are supplied through `fs` (a map from file name to
contents, `none` modelling a missing file); the host path resolution
(`path.join` with the aux directory) is abstracted into the keying of `fs`.
Included files are scanned only for `\newlabel` records, never for further
`\@input` directives. -/
def parseAuxFile (fs : Str → Option Str) (auxPath : Str) : Str → Option LabelEntry :=
  match fs auxPath with
  | none => emptyLabels
  | some content =>
    let t1 := (parseLabels content).foldl (fun t r => setLabel t r.1 r.2) emptyLabels
    (parseInputs content).foldl
      (fun t f =>
        match fs f with
        | some child => (parseLabels child).foldl (fun t r => setLabel t r.1 r.2) t
        | none => t) t1

/-- The flat, ordered sequence of label records `parseAuxFile` processes:
primary-file records first, then the records of each included file in directive
order (from the spec's description of the merge). -/
def allAuxRecords (fs : Str → Option Str) (auxPath : Str) : List (Str × LabelEntry) :=
  match fs auxPath with
  | none => []
  | some content =>
      parseLabels content ++
        (parseInputs content).foldr
          (fun f acc =>
            (match fs f with | some child => parseLabels child | none => []) ++ acc) []

/-- Last-writer-wins lookup in an ordered record list (the observable content
of a JS object built by assigning the records in order). -/
def lastRecord : List (Str × LabelEntry) → Str → Option LabelEntry
  | [], _ => none
  | r :: rs, l =>
      match lastRecord rs l with
      | some v => some v
      | none => if r.1 = l then some r.2 else none

/-- Example file system: a primary aux file defining labels `a` and `b` and
including `ch1.aux`, which redefines `a` and (illegally, for the one-level
test) includes `ch2.aux`, which defines `g`. -/
def fsEx : Str → Option Str := fun p =>
  if p = S "main.aux" then
    some (S "\\newlabel\x7ba\x7d\x7b\x7b1\x7d\x7b1\x7d\x7d\\newlabel\x7bb\x7d\x7b\x7b2\x7d\x7b1\x7d\x7d\\@input\x7bch1.aux\x7d")
  else if p = S "ch1.aux" then
    some (S "\\newlabel\x7ba\x7d\x7b\x7b9\x7d\x7b9\x7d\x7d\\@input\x7bch2.aux\x7d")
  else if p = S "ch2.aux" then
    some (S "\\newlabel\x7bg\x7d\x7b\x7b7\x7d\x7b7\x7d\x7d")
  else none

/-- The character class of the JS regex `\s` and of `String.prototype.trim`,
restricted to its ASCII members (the source documents are ASCII). -/
def isSpc (c : Char) : Bool :=
  c == ' ' || c == '\t' || c == '\n' || c == '\r' || c == '\x0b' || c == '\x0c'

/-- JS `String.prototype.trim`. -/
def jsTrim (s : Str) : Str :=
  ((s.dropWhile isSpc).reverse.dropWhile isSpc).reverse

/-- Whether `pat` is a trailing segment of `s` (JS `String.prototype.endsWith`). -/
def endsWith (pat s : Str) : Bool :=
  startsWith pat.reverse s.reverse

/-- Whether `pat` occurs somewhere in `s` (JS `String.prototype.includes`). -/
def containsSub (pat s : Str) : Bool :=
  (firstIdx pat s).isSome

/-- Decimal digit characters of `n`, as produced by JS number-to-string
interpolation of a nonnegative integer. -/
def natDigits (n : Nat) : Str := Nat.toDigits 10 n

/-- Numeric value of a decimal digit character. -/
def digToNat (c : Char) : Nat := c.toNat - '0'.toNat

/-- Value of a string of decimal digits (JS `parseInt` on an all-digit string). -/
def decValue (ds : Str) : Nat := ds.foldl (fun a c => 10 * a + digToNat c) 0

/-- Fueled global replacement of every match of `m` (which yields a
replacement string and the remainder after the match): a JS
`String.prototype.replace` with a global regex, scanning left to right and
continuing after each match. -/
def replaceAllWith (m : Str → Option (Str × Str)) : Nat → Str → Str
  | 0, s => s
  | _, [] => []
  | fuel + 1, c :: cs =>
      match m (c :: cs) with
      | some (repl, rest) => repl ++ replaceAllWith m fuel rest
      | none => c :: replaceAllWith m fuel cs

/-- Match an optional nonempty bracketed group `[([^\]]+)]` at the start of
`s`, returning the group's content and the remainder (the optional-title
pattern of the theorem, proof and enumerate regexes). -/
def matchOptTitle : Str → Option (Str × Str)
  | c :: rest =>
      if c = '[' then
        match readUntil ']' rest with
        | some (t, r) => if t.isEmpty then none else some (t, r)
        | none => none
      else none
  | [] => none

/-- Match `\setcounter{enumi+}{[^}]+}` at the start of `s`, returning the
remainder after the match. -/
def matchSetcounterAt (s : Str) : Option Str := do
  let r1 ← stripPre (S "\\setcounter\x7benum") s
  let (is_, r2) := r1.span (fun c => c == 'i')
  if is_.isEmpty then none else
  let r3 ← stripPre (S "\x7d\x7b") r2
  let (arg, r4) ← readUntil cbr r3
  if arg.isEmpty then none else some r4

/-- Match `\stepcounter{enumi+}` at the start of `s`. -/
def matchStepcounterAt (s : Str) : Option Str := do
  let r1 ← stripPre (S "\\stepcounter\x7benum") s
  let (is_, r2) := r1.span (fun c => c == 'i')
  if is_.isEmpty then none else
  stripPre (S "\x7d") r2

/-- Match `\addtocounter{enumi+}{[^}]+}` at the start of `s`. -/
def matchAddtocounterAt (s : Str) : Option Str := do
  let r1 ← stripPre (S "\\addtocounter\x7benum") s
  let (is_, r2) := r1.span (fun c => c == 'i')
  if is_.isEmpty then none else
  let r3 ← stripPre (S "\x7d\x7b") r2
  let (arg, r4) ← readUntil cbr r3
  if arg.isEmpty then none else some r4

/-- Fueled global removal of every match of `m` (a JS `replace(pat, '')` with a
global regex). -/
def removeAllWith (m : Str → Option Str) : Nat → Str → Str :=
  replaceAllWith (fun s => (m s).map (fun rest => ([], rest)))

/-- Fueled global replacement of `\item\s*` by `</li><li>`. -/
def replaceItems : Nat → Str → Str :=
  replaceAllWith (fun s =>
    (stripPre (S "\\item") s).map (fun r => (S "</li><li>", r.dropWhile isSpc)))

/-- Match `\setcounter{enumi}{(\d+)}` at the start of `s`, returning the
parsed counter value. -/
def matchSetcounterDigitsAt (s : Str) : Option Nat := do
  let r1 ← stripPre (S "\\setcounter\x7benumi\x7d\x7b") s
  let (ds, r2) := r1.span Char.isDigit
  if ds.isEmpty then none else
  match r2 with
  | c :: _ => if c = cbr then some (decValue ds) else none
  | [] => none

/-- Generic first-match scan: the non-global `String.prototype.match`, trying
the matcher at every position from left to right. -/
def findFirstWith {α : Type} (m : Str → Option α) : Nat → Str → Option α
  | 0, _ => none
  | _, [] => none
  | fuel + 1, c :: cs =>
      match m (c :: cs) with
      | some v => some v
      | none => findFirstWith m fuel cs

/-- First `\setcounter{enumi}{N}` occurrence in `s` (the non-global
`match.match(...)` of `convertListsInContent`), as the parsed value `N`. -/
def findSetcounterEnumi : Nat → Str → Option Nat :=
  findFirstWith matchSetcounterDigitsAt

/-- Match one `\begin{enumerate}(?:[OPT])?CONTENT\end{enumerate}` environment
(lazy content) at the start of `s`, returning the optional type, the content,
the full matched text and the remainder.  The regex engine first tries to take
the optional bracket group; if no end token follows it, it backtracks and
retries with the group skipped, so the bracket text then belongs to the lazy
content. -/
def matchEnumerateAt (s : Str) : Option (Option Str × Str × Str × Str) :=
  match stripPre (S "\\begin\x7benumerate\x7d") s with
  | none => none
  | some r1 =>
    let withT : Option (Option Str × Str × Str × Nat) :=
      match matchOptTitle r1 with
      | some (t, r) =>
          match firstIdx (S "\\end\x7benumerate\x7d") r with
          | some i => some (some t, r, '[' :: (t ++ [']']), i)
          | none => none
      | none => none
    match withT with
    | some (optT, r2, optRender, i) =>
      let content := r2.take i
      let rest := r2.drop (i + (S "\\end\x7benumerate\x7d").length)
      some (optT, content,
        S "\\begin\x7benumerate\x7d" ++ optRender ++ content ++ S "\\end\x7benumerate\x7d",
        rest)
    | none =>
      match firstIdx (S "\\end\x7benumerate\x7d") r1 with
      | none => none
      | some i =>
        let content := r1.take i
        let rest := r1.drop (i + (S "\\end\x7benumerate\x7d").length)
        some (none, content,
          S "\\begin\x7benumerate\x7d" ++ content ++ S "\\end\x7benumerate\x7d",
          rest)

/-- Match one `\begin{itemize}CONTENT\end{itemize}` environment (lazy content)
at the start of `s`. -/
def matchItemizeAt (s : Str) : Option (Str × Str × Str) :=
  match stripPre (S "\\begin\x7bitemize\x7d") s with
  | none => none
  | some r1 =>
    match firstIdx (S "\\end\x7bitemize\x7d") r1 with
    | none => none
    | some i =>
      let content := r1.take i
      let rest := r1.drop (i + (S "\\end\x7bitemize\x7d").length)
      some (content,
        S "\\begin\x7bitemize\x7d" ++ content ++ S "\\end\x7bitemize\x7d", rest)

/-- The enumerate replacement callback of `convertListsInContent`: strip the
counter commands, turn item separators into list-item boundaries, derive the
numbering-style attribute from the optional type and the `start` attribute from
a `\setcounter{enumi}{N}` occurrence in the full match. -/
def enumHtml (optT : Option Str) (content fullMatch : Str) : Str :=
  let lc0 := jsTrim content
  let lc1 := removeAllWith matchSetcounterAt (lc0.length + 1) lc0
  let lc2 := removeAllWith matchStepcounterAt (lc1.length + 1) lc1
  let lc3 := removeAllWith matchAddtocounterAt (lc2.length + 1) lc2
  let lc4 := replaceItems (lc3.length + 1) lc3
  let lc5 := if startsWith (S "</li>") lc4 then lc4.drop 5 else lc4
  let lc6 := if endsWith (S "</li>") lc5 then lc5 else lc5 ++ S "</li>"
  let startAttr : Str :=
    match findSetcounterEnumi (fullMatch.length + 1) fullMatch with
    | some n => S " start=\x22" ++ natDigits (n + 1) ++ S "\x22"
    | none => []
  let typeAttr : Str :=
    match optT with
    | some o =>
        if containsSub (S "(a)") o then S " style=\x22list-style-type: lower-alpha;\x22"
        else if containsSub (S "(i)") o then S " style=\x22list-style-type: lower-roman;\x22"
        else if containsSub (S "(A)") o then S " style=\x22list-style-type: upper-alpha;\x22"
        else if containsSub (S "(I)") o then S " style=\x22list-style-type: upper-roman;\x22"
        else []
    | none => []
  S "<ol" ++ typeAttr ++ startAttr ++ S ">" ++ lc6 ++ S "</ol>"

/-- The itemize replacement callback of `convertListsInContent`. -/
def itemizeHtml (content : Str) : Str :=
  let lc0 := jsTrim content
  let lc1 := replaceItems (lc0.length + 1) lc0
  let lc2 := if startsWith (S "</li>") lc1 then lc1.drop 5 else lc1
  let lc3 := if endsWith (S "</li>") lc2 then lc2 else lc2 ++ S "</li>"
  S "<ul>" ++ lc3 ++ S "</ul>"

/-- Fueled global replacement of enumerate environments. -/
def convertEnumScan : Nat → Str → Str :=
  replaceAllWith (fun s =>
    (matchEnumerateAt s).map (fun p => (enumHtml p.1 p.2.1 p.2.2.1, p.2.2.2)))

/-- Fueled global replacement of itemize environments. -/
def convertItemizeScan : Nat → Str → Str :=
  replaceAllWith (fun s =>
    (matchItemizeAt s).map (fun p => (itemizeHtml p.1, p.2.2)))

/-- The `convertListsInContent` function: replace enumerate environments, then
itemize environments, by their HTML list equivalents. -/
def convertListsInContent (content : Str) : Str :=
  let c1 := convertEnumScan (content.length + 1) content
  convertItemizeScan (c1.length + 1) c1

/-- Digit or dot, the character class `[\d.]` of the numeric option regexes. -/
def isDigitDot (c : Char) : Bool := c.isDigit || c == '.'

/-- JS `parseFloat` on a string matched by `[\d.]+`: an integer part, an
optional fraction part after the first dot, parsing stopping at a second dot;
`none` models `NaN` (no digits before a leading dot). Values are exact
rationals; double rounding is not modelled (no claim depends on it). -/
def parseDecimal (ds : Str) : Option Rat :=
  let (ip, rest) := ds.span Char.isDigit
  match rest with
  | '.' :: r2 =>
      let (fp, _) := r2.span Char.isDigit
      if ip.isEmpty && fp.isEmpty then none
      else some ((decValue ip : Rat) + (decValue fp : Rat) / ((10 : Rat) ^ fp.length))
  | _ => if ip.isEmpty then none else some ((decValue ip : Rat))

/-- Fraction digits of `r / d` by long division (enough fuel for every
terminating expansion arising from the source's decimal constants). -/
def fracDigits : Nat → Nat → Nat → Str
  | 0, _, _ => []
  | fuel + 1, r, d =>
      if r = 0 then []
      else Nat.digitChar (r * 10 / d) :: fracDigits fuel (r * 10 % d) d

/-- Decimal rendering of a nonnegative rational, as JS renders such a number
inside a template literal (shortest-double printing artifacts not modelled). -/
def jsNumStr (q : Rat) : Str :=
  let n := q.num.toNat
  let ip := natDigits (n / q.den)
  let r := n % q.den
  if r = 0 then ip else ip ++ S "." ++ fracDigits 30 r q.den

/-- Rendering of an optional numeric value, `none` printing as `NaN`. -/
def jsNumOpt (q : Option Rat) : Str :=
  match q with
  | some v => jsNumStr v
  | none => S "NaN"

/-- Fueled global replacement of a literal pattern. -/
def replaceAllLit (pat repl : Str) : Nat → Str → Str :=
  replaceAllWith (fun s => (stripPre pat s).map (fun rest => (repl, rest)))

/-- Match `([\d.]+)SUFFIX` at the start of `s` (e.g. `0.45\textwidth`). -/
def matchNumThenAt (suffix : Str) (s : Str) : Option (Option Rat) :=
  let (run, rest) := s.span isDigitDot
  if run.isEmpty then none
  else
    match stripPre suffix rest with
    | some _ => some (parseDecimal run)
    | none => none

/-- Match `([\d.]+)(UNIT)` at the start of `s` for the first applicable unit
in alternation order. -/
def matchNumUnitAt (units : List Str) (s : Str) : Option (Option Rat × Str) :=
  let (run, rest) := s.span isDigitDot
  if run.isEmpty then none
  else
    match units.find? (fun u => startsWith u rest) with
    | some u => some (parseDecimal run, u)
    | none => none

/-- Match `KEY\s*=\s*([\d.]+)` at the start of `s`. -/
def matchKeyNumAt (key : Str) (s : Str) : Option (Option Rat) := do
  let r1 ← stripPre key s
  let r2 := r1.dropWhile isSpc
  let r3 ← stripPre (S "=") r2
  let r4 := r3.dropWhile isSpc
  let (run, _) := r4.span isDigitDot
  if run.isEmpty then none else some (parseDecimal run)

/-- Match `KEY\s*=\s*([\d.]+)SUFFIX` at the start of `s`. -/
def matchKeyNumSufAt (key suffix : Str) (s : Str) : Option (Option Rat) := do
  let r1 ← stripPre key s
  let r2 := r1.dropWhile isSpc
  let r3 ← stripPre (S "=") r2
  let r4 := r3.dropWhile isSpc
  matchNumThenAt suffix r4

/-- Match `KEY\s*=\s*([\d.]+)(UNIT)` at the start of `s`. -/
def matchKeyNumUnitAt (key : Str) (units : List Str) (s : Str) :
    Option (Option Rat × Str) := do
  let r1 ← stripPre key s
  let r2 := r1.dropWhile isSpc
  let r3 ← stripPre (S "=") r2
  let r4 := r3.dropWhile isSpc
  matchNumUnitAt units r4

/-- Match `\caption{([^}]+)}` at the start of `s`, returning the caption. -/
def matchCaptionAt (s : Str) : Option Str := do
  let r1 ← stripPre (S "\\caption\x7b") s
  let (cap, _) ← readUntil cbr r1
  if cap.isEmpty then none else some cap

/-- Match `\caption{[^}]+}` at the start of `s`, returning the remainder. -/
def matchCaptionRemoveAt (s : Str) : Option Str := do
  let r1 ← stripPre (S "\\caption\x7b") s
  let (cap, rest) ← readUntil cbr r1
  if cap.isEmpty then none else some rest

/-- Match `\label{([^}]+)}` at the start of `s`, returning name and remainder. -/
def matchLabelAt (s : Str) : Option (Str × Str) := do
  let r1 ← stripPre (S "\\label\x7b") s
  let (name, rest) ← readUntil cbr r1
  if name.isEmpty then none else some (name, rest)

/-- The character class of the minipage body: the source writes the class
`[\s\\S]` (whitespace, a literal backslash, and the letter `S`) rather than
the usual `[\s\S]`, so only these characters can appear in a matched body. -/
def isMinipageBodyChar (c : Char) : Bool := isSpc c || c == '\\' || c == 'S'

/-- Match one minipage environment at the start of `s`, returning the width
argument, the (lazy) content and the remainder.  The lazy body consists of
characters of the narrow class `[\s\\S]` only: if the text before the first
`\end\x7bminipage\x7d` holds any other character, no body length can reach an
end token and the whole match fails. -/
def matchMinipageAt (s : Str) : Option (Str × Str × Str) := do
  let r1 ← stripPre (S "\\begin\x7bminipage\x7d") s
  let r2 := r1.dropWhile isSpc
  let r3 :=
    match r2 with
    | '[' :: rr =>
        match readUntil ']' rr with
        | some (_, r) => r
        | none => r2
    | _ => r2
  let r4 := r3.dropWhile isSpc
  let r5 ← stripPre (S "\x7b") r4
  let (width, r6) ← readUntil cbr r5
  if width.isEmpty then none else
  let i ← firstIdx (S "\\end\x7bminipage\x7d") r6
  if (r6.take i).all isMinipageBodyChar then
    some (width, r6.take i, r6.drop (i + (S "\\end\x7bminipage\x7d").length))
  else none

/-- The minipage replacement callback: width from a `\textwidth` fraction when
present, else the raw width string; `\centering` stripped from the content. -/
def minipageDiv (width content : Str) : Str :=
  let widthStyle :=
    match findFirstWith (matchNumThenAt (S "\\textwidth")) (width.length + 1) width with
    | some v => S "width: " ++ jsNumOpt (v.map (· * 100)) ++ S "%;"
    | none => S "width: " ++ width ++ S ";"
  S "<div class=\x22minipage\x22 style=\x22" ++ widthStyle ++
    S " display: inline-block; vertical-align: top;\x22>" ++
    replaceAllLit (S "\\centering") [] (content.length + 1) content ++ S "</div>"

/-- Fueled global minipage replacement. -/
def replaceMinipages : Nat → Str → Str :=
  replaceAllWith (fun s =>
    (matchMinipageAt s).map (fun p => (minipageDiv p.1 p.2.1, p.2.2)))

/-- Match `\hspace\*?{([^}]+)}` at the start of `s`. -/
def matchHspaceAt (s : Str) : Option (Str × Str) := do
  let r1 ← stripPre (S "\\hspace") s
  let r2 := match r1 with | '*' :: rr => rr | _ => r1
  let r3 ← stripPre (S "\x7b") r2
  let (size, r4) ← readUntil cbr r3
  if size.isEmpty then none else some (size, r4)

/-- The hspace replacement callback: a sized spacer when the size parses as a
number with a recognized unit, else a default 1em spacer. -/
def hspaceSpan (size : Str) : Str :=
  match findFirstWith
      (matchNumUnitAt [S "cm", S "mm", S "em", S "ex", S "pt", S "px"])
      (size.length + 1) size with
  | some (v, u) =>
      S "<span style=\x22display: inline-block; width: " ++ jsNumOpt v ++ u ++
        S ";\x22></span>"
  | none => S "<span style=\x22display: inline-block; width: 1em;\x22></span>"

/-- Fueled global hspace replacement. -/
def replaceHspaces : Nat → Str → Str :=
  replaceAllWith (fun s => (matchHspaceAt s).map (fun p => (hspaceSpan p.1, p.2)))

/-- Match `\includegraphics\s*(?:\[OPTIONS])?\s*{FILENAME}` at the start of
`s` (the options group may be empty). -/
def matchIncludegraphicsAt (s : Str) : Option (Option Str × Str × Str) := do
  let r1 ← stripPre (S "\\includegraphics") s
  let r2 := r1.dropWhile isSpc
  let (opts, r3) :=
    match r2 with
    | '[' :: rr =>
        match readUntil ']' rr with
        | some (o, r) => (some o, r)
        | none => (none, r2)
    | _ => (none, r2)
  let r4 := r3.dropWhile isSpc
  let r5 ← stripPre (S "\x7b") r4
  let (fn, r6) ← readUntil cbr r5
  if fn.isEmpty then none else some (opts, fn, r6)

/-- ASCII lowercasing (the `/i` flag of the extension regexes). -/
def lowerStr (s : Str) : Str := s.map Char.toLower

/-- Whether the filename already carries a recognized image extension. -/
def hasImgExt (f : Str) : Bool :=
  [S ".png", S ".jpg", S ".jpeg", S ".gif", S ".svg", S ".pdf"].any
    (fun e => endsWith e (lowerStr f))

/-- Filename normalization of the image pipeline: trim, default missing
extensions to `.png`, and map `.pdf` to `.png`. -/
def normalizeImgName (fn : Str) : Str :=
  let c := jsTrim fn
  let c2 := if hasImgExt c then c else c ++ S ".png"
  if endsWith (S ".pdf") (lowerStr c2) then c2.take (c2.length - 4) ++ S ".png" else c2

/-- The CSS sizing attribute accumulated from the bracket options of an
`\includegraphics` (page-fraction width, absolute width with unit conversion,
page-fraction height, uniform scale, in source order; the absolute width is
only applied when no page-fraction width matched). -/
def imgStyleAttr (options : Str) : Str :=
  let fuel := options.length + 1
  let widthM := findFirstWith (matchKeyNumSufAt (S "width") (S "\\textwidth")) fuel options
  let s1 :=
    match widthM with
    | some v => S "width: " ++ jsNumOpt (v.map (· * 100)) ++ S "%;"
    | none => []
  let absM := findFirstWith
    (matchKeyNumUnitAt (S "width") [S "cm", S "mm", S "in", S "pt", S "px"]) fuel options
  let s2 :=
    match absM, widthM with
    | some (v, u), none =>
        let pixels := v.map (fun x =>
          if u = S "cm" then x * (378 / 10 : Rat)
          else if u = S "mm" then x * (378 / 100 : Rat)
          else if u = S "in" then x * 96
          else if u = S "pt" then x * (133 / 100 : Rat)
          else x)
        S "width: " ++ jsNumOpt pixels ++ S "px;"
    | _, _ => []
  let hM := findFirstWith (matchKeyNumSufAt (S "height") (S "\\textheight")) fuel options
  let s3 :=
    match hM with
    | some v => S "height: " ++ jsNumOpt (v.map (· * 100)) ++ S "vh;"
    | none => []
  let scM := findFirstWith (matchKeyNumAt (S "scale")) fuel options
  let s4 :=
    match scM with
    | some v => S "width: " ++ jsNumOpt (v.map (· * 100)) ++ S "%;"
    | none => []
  s1 ++ s2 ++ s3 ++ s4

/-- The image tag emitted inside figure content by `processFiguresInContent`
(an empty options string is falsy in JS and yields no style). -/
def imgTag (caption : Str) (options : Option Str) (fn : Str) : Str :=
  let styleAttr :=
    match options with
    | some o => if o.isEmpty then [] else imgStyleAttr o
    | none => ([] : Str)
  let cf := normalizeImgName fn
  let styleString :=
    if styleAttr.isEmpty then ([] : Str) else S " style=\x22" ++ styleAttr ++ S "\x22"
  S "<img src=\x22" ++ cf ++ S "\x22 alt=\x22" ++
    (if caption.isEmpty then S "Figure" else caption) ++
    S "\x22 class=\x22latex-image\x22" ++ styleString ++ S ">"

/-- Fueled global `\includegraphics` replacement within one figure body. -/
def replaceIncludegraphics (caption : Str) : Nat → Str → Str :=
  replaceAllWith (fun s =>
    (matchIncludegraphicsAt s).map (fun p => (imgTag caption p.1 p.2.1, p.2.2)))

/-- The per-figure transformation of `processFiguresInContent`: extract caption
and label, strip caption/label/centering commands, translate minipages, hfill
and hspace spacers and image includes, and wrap everything in a figure element
with the label as id and the caption as figcaption. -/
def figureBodyHtml (figContent : Str) : Str :=
  let caption := (findFirstWith matchCaptionAt (figContent.length + 1) figContent).getD []
  let label :=
    ((findFirstWith matchLabelAt (figContent.length + 1) figContent).map (·.1)).getD []
  let f1 := removeAllWith matchCaptionRemoveAt (figContent.length + 1) figContent
  let f2 := removeAllWith (fun s => (matchLabelAt s).map (·.2)) (f1.length + 1) f1
  let f3 := replaceAllLit (S "\\centering") [] (f2.length + 1) f2
  let f4 := replaceMinipages (f3.length + 1) f3
  let f5 := replaceAllLit (S "\\hfill")
    (S "<span style=\x22display: inline-block; width: 1em;\x22></span>") (f4.length + 1) f4
  let f6 := replaceHspaces (f5.length + 1) f5
  let f7 := replaceIncludegraphics caption (f6.length + 1) f6
  S "\n<figure class=\x22latex-figure\x22" ++
    (if label.isEmpty then [] else S " id=\x22" ++ label ++ S "\x22") ++ S ">\n" ++
    S "  <div class=\x22figure-content\x22>" ++ jsTrim f7 ++ S "</div>\n" ++
    (if caption.isEmpty then [] else S "  <figcaption>" ++ caption ++ S "</figcaption>\n") ++
    S "</figure>\n"

/-- Match `\begin{figure}\s*CONTENT\end{figure}` (lazy content) at the start
of `s`, as scanned by `processFiguresInContent`. -/
def matchFigEnvAt (s : Str) : Option (Str × Str) := do
  let r1 ← stripPre (S "\\begin\x7bfigure\x7d") s
  let r2 := r1.dropWhile isSpc
  let i ← firstIdx (S "\\end\x7bfigure\x7d") r2
  some (r2.take i, r2.drop (i + (S "\\end\x7bfigure\x7d").length))

/-- Fueled scan of `processFiguresInContent`. -/
def pficScan : Nat → Str → Str :=
  replaceAllWith (fun s =>
    (matchFigEnvAt s).map (fun p => (figureBodyHtml p.1, p.2)))

/-- The `processFiguresInContent` function. -/
def processFiguresInContent (content : Str) : Str :=
  pficScan (content.length + 1) content

/-- The subproof HTML template emitted by `processNestedProofs` (exact text of
the template literal, including its newlines and indentation). -/
def subproofDiv (id title content : Str) : Str :=
  S "<div class=\x22subproof collapsed\x22 data-subproof-id=\x22" ++ id ++
  S "\x22>\n      <div class=\x22subproof-header\x22>\n        <button class=\x22subproof-toggle\x22 onclick=\x22toggleSubproof(\x27" ++
  id ++
  S "\x27)\x22 aria-expanded=\x22false\x22>\n          <span class=\x22subproof-toggle-icon\x22>▼</span>\n          <strong>" ++
  title ++
  S "</strong>\n        </button>\n      </div>\n      <div class=\x22subproof-content\x22 id=\x22" ++
  id ++
  S "\x22>\n        " ++ content ++
  S "\n        <span class=\x22proof-end\x22>□</span>\n      </div>\n    </div>"

/-- Match one `\begin{proof}(?:[TITLE])?CONTENT\end{proof}` (lazy content) at
the start of `s`, as used by the flat regex of `processNestedProofs`.  As with
the other environment regexes, a taken optional title group is abandoned by
backtracking when no end token follows it. -/
def matchProofEnvAt (s : Str) : Option (Option Str × Str × Str) :=
  match stripPre (S "\\begin\x7bproof\x7d") s with
  | none => none
  | some r1 =>
    let withT : Option (Option Str × Str × Nat) :=
      match matchOptTitle r1 with
      | some (t, r) =>
          match firstIdx (S "\\end\x7bproof\x7d") r with
          | some i => some (some t, r, i)
          | none => none
      | none => none
    match withT with
    | some (optT, r2, i) =>
        some (optT, r2.take i, r2.drop (i + (S "\\end\x7bproof\x7d").length))
    | none =>
      match firstIdx (S "\\end\x7bproof\x7d") r1 with
      | none => none
      | some i =>
          some (none, r1.take i, r1.drop (i + (S "\\end\x7bproof\x7d").length))

/-- Fueled scan of `processNestedProofs`: replace each (lazily matched) proof
environment by a collapsible subproof block whose id embeds the ambient
timestamp — `Date.now()` is modelled by the `clock` parameter, indexed by the
running subproof counter — and the subproof counter. -/
def pnpScan (clock : Nat → Nat) : Nat → Nat → Str → Str
  | 0, _, s => s
  | _, _, [] => []
  | fuel + 1, k, c :: cs =>
      match matchProofEnvAt (c :: cs) with
      | some (optT, content, rest) =>
          subproofDiv
            (S "subproof-" ++ natDigits (clock k) ++ S "-" ++ natDigits k)
            ((optT.getD (S "Proof")))
            (convertListsInContent (jsTrim content))
          ++ pnpScan clock fuel (k + 1) rest
      | none => c :: pnpScan clock fuel k cs

/-- The `processNestedProofs` function. -/
def processNestedProofs (clock : Nat → Nat) (content : Str) : Str :=
  pnpScan clock (content.length + 1) 0 content

/-- The `\begin{proof}` token. -/
def bPf : Str := S "\\begin\x7bproof\x7d"

/-- The `\end{proof}` token. -/
def ePf : Str := S "\\end\x7bproof\x7d"

/-- A top-level proof element produced by `extractProofs`. -/
structure ProofElem where
  title : Str
  content : Str
  fullMatch : Str
  startIndex : Nat
  proofNumber : Nat
  stableId : Str
deriving DecidableEq

/-- The inner loop of `extractProofs`: starting just after a `\begin{proof}`
with nesting depth 1, repeatedly locate the next begin and end tokens in the
remaining text; a begin before the next end increments the depth, an end
decrements it; the end that brings the depth to 0 is the matching one.
Returns `some (some endPos)` on success, `some none` when no matching end
exists (the `while` loop ends with positive depth), `none` on fuel
exhaustion (proved unreachable for fuel `text.length + 1`). -/
def findEnd (text : Str) : Nat → Nat → Nat → Option (Option Nat)
  | 0, _, _ => none
  | fuel + 1, searchPos, depth =>
    if searchPos < text.length then
      let rem := text.drop searchPos
      match firstIdx ePf rem with
      | none => some none
      | some nextEnd =>
        match firstIdx bPf rem with
        | some nextBegin =>
          if nextBegin < nextEnd then
            findEnd text fuel (searchPos + nextBegin + bPf.length) (depth + 1)
          else if depth = 1 then some (some (searchPos + nextEnd))
          else findEnd text fuel (searchPos + nextEnd + ePf.length) (depth - 1)
        | none =>
          if depth = 1 then some (some (searchPos + nextEnd))
          else findEnd text fuel (searchPos + nextEnd + ePf.length) (depth - 1)
    else some none

/-- The nine theorem-like environment names of the backward label-attribution
regex of `extractProofs` (note: a shorter list than the fifteen names of
`extractTheorems`, as in the source). -/
def labelGuardEnds : List Str :=
  [S "\\end\x7btheorem\x7d", S "\\end\x7blemma\x7d", S "\\end\x7bproposition\x7d",
   S "\\end\x7bcorollary\x7d", S "\\end\x7bdefinition\x7d", S "\\end\x7bexample\x7d",
   S "\\end\x7bremark\x7d", S "\\end\x7bexercise\x7d", S "\\end\x7bproblem\x7d"]

/-- Whether any theorem-like `\end{...}` of the guard list occurs in `s` (the
negative lookahead of the label-attribution regex). -/
def hasThmEnd (s : Str) : Bool :=
  labelGuardEnds.any (fun t => (firstIdx t s).isSome)

/-- First `\label{NAME}` in the text before the proof that is not followed by a
theorem-like `\end{...}` (the label-attribution scan of `extractProofs`; on a
failed lookahead the scan advances one position, as a regex engine does). -/
def labelScan : Nat → Str → Option Str
  | 0, _ => none
  | _, [] => none
  | fuel + 1, c :: cs =>
      match matchLabelAt (c :: cs) with
      | some (name, rest) =>
          if hasThmEnd rest then labelScan fuel cs else some name
      | none => labelScan fuel cs

/-- Lower-case letter or digit (the retained class of the title slug). -/
def isLowAl (c : Char) : Bool :=
  ('a' ≤ c && c ≤ 'z') || ('0' ≤ c && c ≤ '9')

/-- Replace every maximal run of characters outside `[a-z0-9]` by a single
dash (the `replace(/[^a-z0-9]+/g, '-')` of the title slug). -/
def squashAux : Bool → Str → Str
  | _, [] => []
  | inRun, c :: cs =>
      if isLowAl c then c :: squashAux false cs
      else if inRun then squashAux true cs
      else '-' :: squashAux true cs

/-- The title slug of `extractProofs`: lowercase, then squash non-alphanumeric
runs to dashes (ASCII lowercasing). -/
def sanitizeSlug (t : Str) : Str := squashAux false (t.map Char.toLower)

/-- The collision-avoidance loop of `extractProofs`: while the candidate id is
already used, try `BASE-1`, `BASE-2`, …. Fuel `used.length + 1` suffices (the
candidates are pairwise distinct, so one of the first `used.length + 1` is
free; see `disambiguate_not_mem`). -/
def disambGo (used : List Str) (base : Str) : Nat → Str → Nat → Str
  | 0, cur, _ => cur
  | fuel + 1, cur, k =>
      if used.contains cur then
        disambGo used base fuel (base ++ S "-" ++ natDigits k) (k + 1)
      else cur

/-- Disambiguation of a derived stable id against the already-used ids. -/
def disambiguate (used : List Str) (base : Str) : Str :=
  disambGo used base (used.length + 1) base 1

/-- The outer scan of `extractProofs`: find the next `\begin{proof}` (with
optional title), find its matching end by depth tracking, derive the stable id
(preceding-label, title-slug, or unchecked numeric fallback, the first two
disambiguated against used ids), convert the body (lists, figures, nested
proofs) and continue past the extracted environment; when no matching end
exists, continue just past the begin token. `none` on fuel exhaustion. -/
def extractProofsAux (text : Str) (clock : Nat → Nat) :
    Nat → Nat → List Str → Nat → List ProofElem → Option (List ProofElem)
  | 0, _, _, _, _ => none
  | fuel + 1, pos, used, counter, acc =>
    if pos < text.length then
      match firstIdx bPf (text.drop pos) with
      | none => some acc
      | some idx =>
        let startPos := pos + idx
        let titleOpt :=
          match matchOptTitle ((text.drop pos).drop (idx + bPf.length)) with
          | some (t, _) => some t
          | none => none
        let startLen := bPf.length +
          (match titleOpt with | some t => t.length + 2 | none => 0)
        match findEnd text (text.length + 1) (startPos + startLen) 1 with
        | none => none
        | some none =>
            extractProofsAux text clock fuel (startPos + startLen) used counter acc
        | some (some endPos) =>
            let fullMatch := (text.take (endPos + ePf.length)).drop startPos
            let content := (text.take endPos).drop (startPos + startLen)
            let clean0 := convertListsInContent (jsTrim content)
            let clean1 := processFiguresInContent clean0
            let cleanContent := processNestedProofs clock clean1
            let textBefore := text.take startPos
            let stableId :=
              match labelScan (textBefore.length + 1) textBefore with
              | some name => disambiguate used (S "proof-for-" ++ name)
              | none =>
                match titleOpt with
                | some t => disambiguate used (S "proof-" ++ sanitizeSlug t)
                | none => S "proof-num-" ++ natDigits counter
            let el : ProofElem :=
              ⟨titleOpt.getD (S "Proof"), cleanContent, fullMatch, startPos,
               counter, stableId⟩
            extractProofsAux text clock fuel (endPos + ePf.length)
              (stableId :: used) (counter + 1) (acc ++ [el])
    else some acc

/-- The `extractProofs` function (fuel `text.length + 1`, proved sufficient). -/
def extractProofs (clock : Nat → Nat) (text : Str) : List ProofElem :=
  (extractProofsAux text clock (text.length + 1) 0 [] 0 []).getD []

/-- Proof environments nested to depth `n` around the body `x` (the claim's
"proof containing a proof containing a proof" at `n = 3`). -/
def nestProof : Nat → Str
  | 0 => ['x']
  | n + 1 => bPf ++ nestProof n ++ ePf

/-- A theorem-like element produced by `extractTheorems`. -/
structure ThmElem where
  envName : Str
  number : Str
  label : Option Str
  title : Option Str
  content : Str
  fullMatch : Str
  startIndex : Nat
  typeCount : Nat
deriving DecidableEq

/-- The closed list of theorem-like environment names, in alternation order. -/
def theoremTypes : List Str :=
  [S "theorem", S "lemma", S "proposition", S "corollary", S "definition",
   S "example", S "remark", S "conjecture", S "claim", S "fact", S "notation",
   S "axiom", S "construction", S "exercise", S "problem"]

/-- Try the environment names in alternation order after a `\begin{`,
requiring the closing brace right after the name. -/
def pickEnvName : List Str → Str → Option (Str × Str)
  | [], _ => none
  | t :: ts, s =>
      match stripPre (t ++ [cbr]) s with
      | some r => some (t, r)
      | none => pickEnvName ts s

/-- Match one theorem-like environment (lazy content up to the first matching
`\end{NAME}`) at the start of `s`: environment name, optional title, content,
full match and remainder.  A taken optional title group is abandoned by
backtracking when no matching end token follows it. -/
def matchTheoremAt (s : Str) : Option (Str × Option Str × Str × Str × Str) := do
  let r1 ← stripPre (S "\\begin\x7b") s
  let (env, r2) ← pickEnvName theoremTypes r1
  let endTok := S "\\end\x7b" ++ env ++ [cbr]
  let withT : Option (Option Str × Str × Str × Nat) :=
    match matchOptTitle r2 with
    | some (t, r) =>
        match firstIdx endTok r with
        | some i => some (some t, r, '[' :: (t ++ [']']), i)
        | none => none
    | none => none
  match withT with
  | some (optT, r3, optRender, i) =>
    let content := r3.take i
    some (env, optT, content,
      S "\\begin\x7b" ++ env ++ [cbr] ++ optRender ++ content ++ endTok,
      r3.drop (i + endTok.length))
  | none =>
    match firstIdx endTok r2 with
    | none => none
    | some i =>
      let content := r2.take i
      some (env, none, content,
        S "\\begin\x7b" ++ env ++ [cbr] ++ content ++ endTok,
        r2.drop (i + endTok.length))

/-- Remove the first match of `m` only (a non-global `replace(pat, '')`). -/
def removeFirstWith (m : Str → Option Str) : Nat → Str → Str
  | 0, s => s
  | _, [] => []
  | fuel + 1, c :: cs =>
      match m (c :: cs) with
      | some rest => rest
      | none => c :: removeFirstWith m fuel cs

/-- The scan of `extractTheorems`: per-type occurrence counters are threaded
through the scan; the displayed number comes from the first `\label` of the
body looked up in the label table (`?` when unresolved); the body has its first
label removed, is trimmed, and has lists and figures converted. -/
def scanTheorems (labels : Str → Option LabelEntry) :
    Nat → Nat → (Str → Nat) → Str → List ThmElem
  | 0, _, _, _ => []
  | _, _, _, [] => []
  | fuel + 1, pos, counts, c :: cs =>
      match matchTheoremAt (c :: cs) with
      | some (env, optT, content, fullMatch, rest) =>
          let cnt := counts env + 1
          let labelM := findFirstWith matchLabelAt (content.length + 1) content
          let number :=
            match labelM with
            | some (name, _) =>
                match labels name with
                | some en => en.number
                | none => S "?"
            | none => S "?"
          let clean0 := removeFirstWith (fun s => (matchLabelAt s).map (·.2))
            (content.length + 1) content
          let clean1 := processFiguresInContent (convertListsInContent (jsTrim clean0))
          ⟨env, number, labelM.map (·.1), optT, clean1, fullMatch, pos, cnt⟩ ::
            scanTheorems labels fuel (pos + fullMatch.length)
              (fun e => if e = env then cnt else counts e) rest
      | none => scanTheorems labels fuel (pos + 1) counts cs

/-- The `extractTheorems` function. -/
def extractTheorems (labels : Str → Option LabelEntry) (text : Str) : List ThmElem :=
  scanTheorems labels (text.length + 1) 0 (fun _ => 0) text

/-- A section header element produced by `extractSections`. -/
structure SecElem where
  level : Str
  title : Str
  fullMatch : Str
  startIndex : Nat
deriving DecidableEq

/-- The section level names, in alternation order. -/
def sectionLevels : List Str :=
  [S "section", S "subsection", S "subsubsection"]

/-- Try each section level name (optionally starred) followed by a braced
nonempty title, after a backslash. -/
def matchSectionLvl : List Str → Str → Option (Str × Bool × Str × Str)
  | [], _ => none
  | lvl :: lvls, s =>
      match
        (do
          let r1 ← stripPre lvl s
          let (star, r2) :=
            match r1 with
            | '*' :: rr => (true, rr)
            | _ => (false, r1)
          let r3 ← stripPre (S "\x7b") r2
          let (t, r4) ← readUntil cbr r3
          if t.isEmpty then none else some (lvl, star, t, r4)) with
      | some v => some v
      | none => matchSectionLvl lvls s

/-- Match one `\(section|subsection|subsubsection)\*?{TITLE}` at the start of
`s`. -/
def matchSectionAt (s : Str) : Option (Str × Str × Str × Str) := do
  let r1 ← stripPre (S "\\") s
  let (lvl, star, t, rest) ← matchSectionLvl sectionLevels r1
  some (lvl, t,
    S "\\" ++ lvl ++ (if star then [('*' : Char)] else []) ++ [obr] ++ t ++ [cbr],
    rest)

/-- The scan of `extractSections`. -/
def scanSections : Nat → Nat → Str → List SecElem
  | 0, _, _ => []
  | _, _, [] => []
  | fuel + 1, pos, c :: cs =>
      match matchSectionAt (c :: cs) with
      | some (lvl, t, fullMatch, rest) =>
          ⟨lvl, t, fullMatch, pos⟩ ::
            scanSections fuel (pos + fullMatch.length) rest
      | none => scanSections fuel (pos + 1) cs

/-- The `extractSections` function. -/
def extractSections (text : Str) : List SecElem :=
  scanSections (text.length + 1) 0 text

/-- A figure element produced by `extractFigures`. -/
structure FigElem where
  content : Str
  fullMatch : Str
  startIndex : Nat
deriving DecidableEq

/-- Match one `\begin{figure}(?:\s*\[...])?CONTENT\end{figure}` (lazy content)
at the start of `s`, with the regex's fallback of re-matching without the
optional placement group when no end token follows it. -/
def matchFigureExtractAt (s : Str) : Option (Str × Str × Str) :=
  match stripPre (S "\\begin\x7bfigure\x7d") s with
  | none => none
  | some r1 =>
    let fallback : Option (Str × Str × Str) :=
      match firstIdx (S "\\end\x7bfigure\x7d") r1 with
      | some i =>
          some (r1.take i,
            S "\\begin\x7bfigure\x7d" ++ r1.take i ++ S "\\end\x7bfigure\x7d",
            r1.drop (i + (S "\\end\x7bfigure\x7d").length))
      | none => none
    let ws := r1.takeWhile isSpc
    match r1.dropWhile isSpc with
    | '[' :: rr =>
        match readUntil ']' rr with
        | some (o, r3) =>
            match firstIdx (S "\\end\x7bfigure\x7d") r3 with
            | some i =>
                some (r3.take i,
                  S "\\begin\x7bfigure\x7d" ++ ws ++ ('[' :: (o ++ [']'])) ++
                    r3.take i ++ S "\\end\x7bfigure\x7d",
                  r3.drop (i + (S "\\end\x7bfigure\x7d").length))
            | none => fallback
        | none => fallback
    | _ => fallback

/-- The scan of `extractFigures` (the stored content is trimmed). -/
def scanFigures : Nat → Nat → Str → List FigElem
  | 0, _, _ => []
  | _, _, [] => []
  | fuel + 1, pos, c :: cs =>
      match matchFigureExtractAt (c :: cs) with
      | some (content, fullMatch, rest) =>
          ⟨jsTrim content, fullMatch, pos⟩ ::
            scanFigures fuel (pos + fullMatch.length) rest
      | none => scanFigures fuel (pos + 1) cs

/-- The `extractFigures` function. -/
def extractFigures (text : Str) : List FigElem :=
  scanFigures (text.length + 1) 0 text

/-- An enumerate element produced by `extractEnumerates`. -/
structure EnumElem where
  listType : Option Str
  content : Str
  fullMatch : Str
  startIndex : Nat
deriving DecidableEq

/-- The scan of `extractEnumerates` (the stored content is trimmed). -/
def scanEnumerates : Nat → Nat → Str → List EnumElem
  | 0, _, _ => []
  | _, _, [] => []
  | fuel + 1, pos, c :: cs =>
      match matchEnumerateAt (c :: cs) with
      | some (optT, content, fullMatch, rest) =>
          ⟨optT, jsTrim content, fullMatch, pos⟩ ::
            scanEnumerates fuel (pos + fullMatch.length) rest
      | none => scanEnumerates fuel (pos + 1) cs

/-- The `extractEnumerates` function. -/
def extractEnumerates (text : Str) : List EnumElem :=
  scanEnumerates (text.length + 1) 0 text

/-- An itemize element produced by `extractItemizes`. -/
structure ItemElem where
  content : Str
  fullMatch : Str
  startIndex : Nat
deriving DecidableEq

/-- The scan of `extractItemizes` (the stored content is trimmed). -/
def scanItemizes : Nat → Nat → Str → List ItemElem
  | 0, _, _ => []
  | _, _, [] => []
  | fuel + 1, pos, c :: cs =>
      match matchItemizeAt (c :: cs) with
      | some (content, fullMatch, rest) =>
          ⟨jsTrim content, fullMatch, pos⟩ ::
            scanItemizes fuel (pos + fullMatch.length) rest
      | none => scanItemizes fuel (pos + 1) cs

/-- The `extractItemizes` function. -/
def extractItemizes (text : Str) : List ItemElem :=
  scanItemizes (text.length + 1) 0 text

/-- One masking step of `convertLaTeXToHTML`: overwrite the span
`[start, start + len)` of the working copy with `len` blanks. -/
def maskOne (t : Str) (start len : Nat) : Str :=
  jsSubstring t 0 (start : Int) ++ List.replicate len ' ' ++
    jsSubstring t ((start : Int) + (len : Int)) (t.length : Int)

/-- The masking loop of `convertLaTeXToHTML`, iterating the box spans from the
last to the first (each span given as start offset and length). -/
def maskBoxes (text : Str) (boxes : List (Nat × Nat)) : Str :=
  boxes.foldr (fun b t => maskOne t b.1 b.2) text

/-- Insertion into a start-offset-sorted span list, keeping earlier elements
first among equal keys (JS `Array.prototype.sort` is stable). -/
def insertByStart (x : Nat × Nat) : List (Nat × Nat) → List (Nat × Nat)
  | [] => [x]
  | y :: ys => if y.1 ≤ x.1 then y :: insertByStart x ys else x :: y :: ys

/-- Stable sort of box spans by start offset: elements are inserted in their
original order, and `insertByStart` puts each new element after already-placed
elements with an equal key, so earlier-listed elements stay first among equal
keys as with JS `Array.prototype.sort`. -/
def sortByStart (l : List (Nat × Nat)) : List (Nat × Nat) :=
  l.foldl (fun acc x => insertByStart x acc) []

/-- The results of the extraction phase of `convertLaTeXToHTML` (its lines
462–480): figures, theorems, proofs and sections scanned over the input text;
a masked copy in which every theorem and proof span is blanked; and the
enumerate and itemize lists scanned over that masked copy. -/
structure ExtractionPhase where
  figures : List FigElem
  theorems : List ThmElem
  proofs : List ProofElem
  sections : List SecElem
  masked : Str
  enumerates : List EnumElem
  itemizes : List ItemElem

/-- The extraction phase of `convertLaTeXToHTML`, faithful to the source's
order: figures, theorems, proofs and sections are extracted from `texContent`
itself; only the enumerate and itemize scans run over the masked copy. -/
def extractAll (labels : Str → Option LabelEntry) (clock : Nat → Nat)
    (texContent : Str) : ExtractionPhase :=
  let figures := extractFigures texContent
  let theorems := extractTheorems labels texContent
  let proofs := extractProofs clock texContent
  let sections := extractSections texContent
  let boxes := sortByStart
    ((theorems.map (fun t => (t.startIndex, t.fullMatch.length))) ++
     (proofs.map (fun p => (p.startIndex, p.fullMatch.length))))
  let masked := maskBoxes texContent boxes
  let enumerates := extractEnumerates masked
  let itemizes := extractItemizes masked
  ⟨figures, theorems, proofs, sections, masked, enumerates, itemizes⟩

/-- The four reference command tokens, each up to and including the opening
brace of the label argument. -/
def refCmdToks : List Str :=
  [S "\\ref\x7b", S "\\eqref\x7b", S "\\cref\x7b", S "\\Cref\x7b"]

/-- Try each token of a list at the start of `s`. -/
def matchAnyTok : List Str → Str → Option (Str × Str)
  | [], _ => none
  | t :: ts, s =>
      match stripPre t s with
      | some r => some (t, r)
      | none => matchAnyTok ts s

/-- Match one reference command `\(ref|eqref|cref|Cref){LABEL}` at the start of
`s`, returning the label and the remainder. -/
def matchRefCmd : List Str → Str → Option (Str × Str)
  | [], _ => none
  | tok :: toks, s =>
      match stripPre tok s with
      | some r1 =>
          match readUntil cbr r1 with
          | some (l, r2) => if l.isEmpty then none else some (l, r2)
          | none => matchRefCmd toks s
      | none => matchRefCmd toks s

/-- The prose replacement of `processReferences`: an anchor link showing the
resolved number (anchor falling back to the label name), or a flagged
`ref-unknown` marker carrying the label name when unresolved. -/
def refAnchor (labels : Str → Option LabelEntry) (l : Str) : Str :=
  match labels l with
  | none =>
      S "<span class=\x22ref-unknown\x22 title=\x22Reference not found: " ++ l ++
        S "\x22>[" ++ l ++ S "?]</span>"
  | some en =>
      let anchor := if en.anchor.isEmpty then l else en.anchor
      S "<a href=\x22#" ++ anchor ++ S "\x22 class=\x22ref-link\x22>" ++
        en.number ++ S "</a>"

/-- The fueled scan of `processReferences`. -/
def refScan (labels : Str → Option LabelEntry) : Nat → Str → Str :=
  replaceAllWith (fun s =>
    (matchRefCmd refCmdToks s).map (fun p => (refAnchor labels p.1, p.2)))

/-- The `processReferences` function. -/
def processReferences (labels : Str → Option LabelEntry) (text : Str) : Str :=
  refScan labels (text.length + 1) text

/-- The in-math replacement: the bare resolved number, or a bracketed
`[LABEL?]` fallback, with no hyperlink markup. -/
def refBare (labels : Str → Option LabelEntry) (l : Str) : Str :=
  match labels l with
  | none => S "[" ++ l ++ S "?]"
  | some en => en.number

/-- Fueled replacement of reference commands by bare numbers (the callback
applied inside each display-math block). -/
def bareRefScan (labels : Str → Option LabelEntry) : Nat → Str → Str :=
  replaceAllWith (fun s =>
    (matchRefCmd refCmdToks s).map (fun p => (refBare labels p.1, p.2)))

/-- The display-math begin tokens (align, equation, gather, starred or not). -/
def mathBegins : List Str :=
  [S "\\begin\x7balign\x7d", S "\\begin\x7balign*\x7d",
   S "\\begin\x7bequation\x7d", S "\\begin\x7bequation*\x7d",
   S "\\begin\x7bgather\x7d", S "\\begin\x7bgather*\x7d"]

/-- The display-math end tokens. -/
def mathEnds : List Str :=
  [S "\\end\x7balign\x7d", S "\\end\x7balign*\x7d",
   S "\\end\x7bequation\x7d", S "\\end\x7bequation*\x7d",
   S "\\end\x7bgather\x7d", S "\\end\x7bgather*\x7d"]

/-- Position and token of the first display-math end token occurring in `s`
(the lazy content bound of the math-block regex, whose end environment is not
required to match its begin environment, as in the source). -/
def findMathEnd : Str → Option (Nat × Str)
  | [] => none
  | c :: cs =>
      match matchAnyTok mathEnds (c :: cs) with
      | some (t, _) => some (0, t)
      | none => (findMathEnd cs).map (fun p => (p.1 + 1, p.2))

/-- The fueled scan of the display-math reference pass of
`convertLaTeXToHTML`: each math block (from a math begin token to the first
math end token) has its reference commands replaced by bare numbers; text
outside math blocks is left unchanged by this pass. -/
def mathRefScan (labels : Str → Option LabelEntry) : Nat → Str → Str
  | 0, s => s
  | _, [] => []
  | fuel + 1, c :: cs =>
      match matchAnyTok mathBegins (c :: cs) with
      | some (bt, r1) =>
          match findMathEnd r1 with
          | some (i, et) =>
              let block := bt ++ r1.take i ++ et
              bareRefScan labels (block.length + 1) block ++
                mathRefScan labels fuel (r1.drop (i + et.length))
          | none => c :: mathRefScan labels fuel cs
      | none => c :: mathRefScan labels fuel cs

/-- The display-math reference pass. -/
def applyMathRefs (labels : Str → Option LabelEntry) (text : Str) : Str :=
  mathRefScan labels (text.length + 1) text

/-- The composed reference conversion of `convertLaTeXToHTML`: bare numbers
inside display math first, then anchor links (or flagged markers) everywhere
else. -/
def convertRefs (labels : Str → Option LabelEntry) (text : Str) : Str :=
  processReferences labels (applyMathRefs labels text)

/-- The `generateEnumerateHTML` function, applied to a top-level enumerate
element at splice time: item separators and the type attribute only — it
consults no counter commands and emits no `start` attribute. -/
def generateEnumerateHTML (el : EnumElem) : Str :=
  let c1 := replaceItems (el.content.length + 1) el.content
  let c2 := if startsWith (S "</li>") c1 then c1.drop 5 else c1
  let c3 := if endsWith (S "</li>") c2 then c2 else c2 ++ S "</li>"
  let typeAttr : Str :=
    match el.listType with
    | some o =>
        if containsSub (S "(a)") o then S " style=\x22list-style-type: lower-alpha;\x22"
        else if containsSub (S "(i)") o then S " style=\x22list-style-type: lower-roman;\x22"
        else if containsSub (S "(A)") o then S " style=\x22list-style-type: upper-alpha;\x22"
        else if containsSub (S "(I)") o then S " style=\x22list-style-type: upper-roman;\x22"
        else []
    | none => []
  S "<ol" ++ typeAttr ++ S ">" ++ c3 ++ S "</ol>"

/-- Whether an occurrence of `pat` could begin at some position of `a` (for a
suitable continuation appended after `a`): some nonempty suffix of `a` is a
prefix of `pat`, or `pat` occurs within `a` itself. -/
def canStartIn (pat : Str) : Str → Bool
  | [] => false
  | c :: cs => startsWith (c :: cs) pat || startsWith pat (c :: cs) || canStartIn pat cs

/-- `k` copies of `a` concatenated. -/
def repList (a : Str) : Nat → Str
  | 0 => []
  | k + 1 => a ++ repList a k

/-- The clock-independent data of a proof element: everything except the
rendered body content. -/
def idView (e : ProofElem) : Str × Str × Nat × Nat × Str :=
  (e.title, e.fullMatch, e.startIndex, e.proofNumber, e.stableId)

/-- An enumerate environment with a counter-set command before its first item. -/
def enumInput (N : Nat) : Str :=
  S "\\begin\x7benumerate\x7d\\setcounter\x7benumi\x7d\x7b" ++ natDigits N ++
    S "\x7d\\item a\\end\x7benumerate\x7d"

/-- Two proofs: the first titled `num 1` (whose slug id is `proof-num-1`), the
second untitled and unlabelled (whose numeric fallback id is also
`proof-num-1`). -/
def collisionText : Str :=
  S "\\begin\x7bproof\x7d[num 1]a\\end\x7bproof\x7d\\begin\x7bproof\x7db\\end\x7bproof\x7d"

/-- Two proofs with the same title `t`. -/
def twoTitledText : Str :=
  S "\\begin\x7bproof\x7d[t]a\\end\x7bproof\x7d\\begin\x7bproof\x7d[t]b\\end\x7bproof\x7d"

/-- A document whose only figure lies inside a theorem body. -/
def figInThmText : Str :=
  S "\\begin\x7btheorem\x7dq\\begin\x7bfigure\x7d\\includegraphics\x7ba\x7d\\end\x7bfigure\x7d\\end\x7btheorem\x7d"

/-- A document whose only itemize list lies inside a proof body. -/
def listInProofText : Str :=
  S "\\begin\x7bproof\x7d\\begin\x7bitemize\x7d\\item a\\end\x7bitemize\x7d\\end\x7bproof\x7d"

theorem take_len_app (a b : Str) (k : Nat) : (a ++ b).take (a.length + k) = a ++ b.take k := by
  induction a with
  | nil => simp
  | cons c cs ih => simp [List.take, Nat.succ_add, ih]

theorem drop_len_app (a b : Str) (k : Nat) : (a ++ b).drop (a.length + k) = b.drop k := by
  induction a with
  | nil => simp
  | cons c cs ih => simp [List.drop, Nat.succ_add, ih]

theorem drop_take_mid (s : Str) (i k : Nat) :
    (s.take (i + k)).drop i = (s.drop i).take k := by
  induction s generalizing i k with
  | nil => simp
  | cons c cs ih =>
    cases i with
    | zero => simp
    | succ i' => simpa [Nat.succ_add] using ih i' k

theorem jsSubstring_of_le (s : Str) (a b : Int) (h0 : 0 ≤ a) (hab : a ≤ b)
    (hb : b ≤ (s.length : Int)) :
    jsSubstring s a b = (s.take b.toNat).drop a.toNat := by
  simp only [jsSubstring]
  have ha' : min (max a 0) (s.length : Int) = a := by omega
  have hb' : min (max b 0) (s.length : Int) = b := by omega
  rw [ha', hb']
  have h1 : min a b = a := by omega
  have h2 : max a b = b := by omega
  rw [h1, h2]

theorem spliceStep_ok (text out : Str) (e : Nat) (el : SpliceElem)
    (h1 : e ≤ el.startIndex) (h2 : el.startIndex + el.fullMatch.length ≤ text.length)
    (h3 : (text.drop el.startIndex).take el.fullMatch.length = el.fullMatch) :
    spliceStep (out ++ text.drop e, (out.length : Int) - (e : Int)) el
      = ((out ++ (text.drop e).take (el.startIndex - e) ++ el.repl)
           ++ text.drop (el.startIndex + el.fullMatch.length),
         (((out ++ (text.drop e).take (el.startIndex - e) ++ el.repl).length : Int))
           - ((el.startIndex + el.fullMatch.length : Nat) : Int)) := by
  rcases el with ⟨s, fm, rp⟩
  simp only at h1 h2 h3 ⊢
  have hhtml : ((out ++ text.drop e).length : Int)
      = (out.length : Int) + (text.length : Int) - (e : Int) := by
    have : (text.drop e).length = text.length - e := List.length_drop ..
    have he : e ≤ text.length := by omega
    simp only [List.length_append, this]
    omega
  have htoNat : ((s : Int) + ((out.length : Int) - (e : Int))).toNat
      = out.length + (s - e) := by omega
  have htoNat2 : ((s : Int) + ((out.length : Int) - (e : Int)) + ((fm.length : Nat) : Int)).toNat
      = out.length + ((s - e) + fm.length) := by omega
  have hdrop_se : (text.drop e).drop (s - e) = text.drop s := by
    rw [List.drop_drop]; congr 1; omega
  have htextAt :
      jsSubstring (out ++ text.drop e)
        ((s : Int) + ((out.length : Int) - (e : Int)))
        ((s : Int) + ((out.length : Int) - (e : Int)) + ((fm.length : Nat) : Int)) = fm := by
    rw [jsSubstring_of_le _ _ _ (by omega) (by omega) (by omega), htoNat2, htoNat]
    rw [take_len_app, drop_len_app, drop_take_mid, hdrop_se, h3]
  have hbefore :
      jsSubstring (out ++ text.drop e) 0 ((s : Int) + ((out.length : Int) - (e : Int)))
        = out ++ (text.drop e).take (s - e) := by
    rw [jsSubstring_of_le _ _ _ le_rfl (by omega) (by omega)]
    simp only [Int.toNat_zero, List.drop_zero, htoNat]
    rw [take_len_app]
  have hafter :
      jsSubstring (out ++ text.drop e)
        ((s : Int) + ((out.length : Int) - (e : Int)) + ((fm.length : Nat) : Int))
        (((out ++ text.drop e).length : Nat) : Int)
        = text.drop (s + fm.length) := by
    rw [jsSubstring_of_le _ _ _ (by omega) (by omega) le_rfl, htoNat2]
    rw [Int.toNat_natCast, List.take_length, drop_len_app, List.drop_drop]
    congr 1; omega
  have hseg : ((text.drop e).take (s - e)).length = s - e := by
    rw [List.length_take, List.length_drop]; omega
  simp only [spliceStep, htextAt, if_pos, hbefore, hafter]
  refine Prod.ext ?_ ?_
  · simp [List.append_assoc]
  · simp only [List.length_append, hseg]
    push_cast
    omega

theorem spliceAux (text : Str) (els : List SpliceElem) :
    ∀ (e : Nat) (out : Str), e ≤ text.length → elemsOk text e els = true →
      els.foldl spliceStep (out ++ text.drop e, (out.length : Int) - (e : Int))
        = (out ++ spliceSpec text e els,
           (out.length : Int) + ((spliceSpec text e els).length : Int)
             - (text.length : Int)) := by
  induction els with
  | nil =>
    intro e out he _
    have hd : ((text.drop e).length : Int) = (text.length : Int) - (e : Int) := by
      rw [List.length_drop]; omega
    simp only [List.foldl_nil, spliceSpec]
    refine Prod.ext rfl ?_
    simp only [hd]
    omega
  | cons el rest ih =>
    intro e out he h
    simp only [elemsOk, Bool.and_eq_true, decide_eq_true_eq] at h
    obtain ⟨⟨⟨h1, h2⟩, h3⟩, h4⟩ := h
    rw [List.foldl_cons, spliceStep_ok text out e el h1 h2 h3,
        ih (el.startIndex + el.fullMatch.length)
          (out ++ (text.drop e).take (el.startIndex - e) ++ el.repl) h2 h4]
    have hseg : ((text.drop e).take (el.startIndex - e)).length = el.startIndex - e := by
      rw [List.length_take, List.length_drop]; omega
    refine Prod.ext ?_ ?_
    · simp [spliceSpec, List.append_assoc]
    · simp only [spliceSpec, List.length_append, hseg]
      push_cast
      omega

/-- C2: for every original text and every position-ordered, non-overlapping,
integrity-checked element list, the splice loop of `convertLaTeXToHTML` equals
the specification splicer: the output is the non-replaced original text with
each element's generated fragment spliced in at its source span, in start-offset
order. -/
theorem splice_offset_integrity (text : Str) (els : List SpliceElem)
    (h : elemsOk text 0 els = true) :
    spliceLoop text els = spliceSpec text 0 els := by
  have h0 := spliceAux text els 0 [] (Nat.zero_le _) h
  simp only [List.nil_append, List.drop_zero, List.length_nil, Nat.cast_zero,
    Int.sub_zero] at h0
  unfold spliceLoop
  rw [h0]

theorem splice_offset_integrity_witness :
    elemsOk (S "abcdef") 0
        [⟨1, S "bc", S "XY"⟩, ⟨4, S "e", S "Z"⟩] = true ∧
      spliceLoop (S "abcdef") [⟨1, S "bc", S "XY"⟩, ⟨4, S "e", S "Z"⟩]
        = spliceSpec (S "abcdef") 0 [⟨1, S "bc", S "XY"⟩, ⟨4, S "e", S "Z"⟩] :=
  ⟨by decide, splice_offset_integrity _ _ (by decide)⟩

/-- C3: when the substring of the working text at the offset-adjusted position
differs from the element's recorded raw source, the splice loop leaves the
working text and the cumulative offset unchanged for that element and continues
with the remaining elements from the same state. -/
theorem splice_mismatch_skips (html : Str) (offset : Int) (el : SpliceElem)
    (rest : List SpliceElem)
    (hm : jsSubstring html ((el.startIndex : Int) + offset)
            ((el.startIndex : Int) + offset + (el.fullMatch.length : Int))
          ≠ el.fullMatch) :
    spliceStep (html, offset) el = (html, offset) ∧
      (el :: rest).foldl spliceStep (html, offset)
        = rest.foldl spliceStep (html, offset) := by
  have hstep : spliceStep (html, offset) el = (html, offset) := by
    simp only [spliceStep]
    rw [if_neg hm]
  exact ⟨hstep, by rw [List.foldl_cons, hstep]⟩

theorem splice_mismatch_skips_witness :
    spliceStep (S "abc", 0) ⟨0, S "zz", S "Q"⟩ = (S "abc", 0) ∧
      ([⟨0, S "zz", S "Q"⟩] : List SpliceElem).foldl spliceStep (S "abc", 0)
        = ([] : List SpliceElem).foldl spliceStep (S "abc", 0) :=
  splice_mismatch_skips (S "abc") 0 ⟨0, S "zz", S "Q"⟩ [] (by decide)

theorem foldl_setLabel (recs : List (Str × LabelEntry)) :
    ∀ (t : Str → Option LabelEntry) (l : Str),
      (recs.foldl (fun t r => setLabel t r.1 r.2) t) l
        = match lastRecord recs l with
          | some v => some v
          | none => t l := by
  induction recs with
  | nil => intro t l; rfl
  | cons r rs ih =>
    intro t l
    rw [List.foldl_cons, ih]
    cases hlast : lastRecord rs l with
    | some v => simp [lastRecord, hlast]
    | none =>
      simp only [lastRecord, hlast, setLabel]
      by_cases hl : r.1 = l
      · subst hl; simp
      · have : ¬ (l = r.1) := fun h => hl h.symm
        simp [hl, this]

theorem foldl_inputs_concat (recsOf : Str → List (Str × LabelEntry))
    (ins : List Str) :
    ∀ (t : Str → Option LabelEntry),
      ins.foldl (fun t f => (recsOf f).foldl (fun t r => setLabel t r.1 r.2) t) t
        = (ins.foldr (fun f acc => recsOf f ++ acc) []).foldl
            (fun t r => setLabel t r.1 r.2) t := by
  induction ins with
  | nil => intro t; rfl
  | cons f ins ih =>
    intro t
    rw [List.foldl_cons, ih, List.foldr_cons, List.foldl_append]

/-- C7: `parseAuxFile` merges the `\newlabel` records of the primary aux file
and then of each file named by an `\@input` directive of the primary file into
one flat last-writer-wins table — lookups see the latest record for each label,
so a label redefined in an included file resolves to the included file's entry —
and follows `\@input` exactly one level deep: on the example file system the
label `a` (redefined in `ch1.aux`) resolves to the child's entry while `g`
(defined only in the grandchild `ch2.aux`, named by an `\@input` inside
`ch1.aux`) is not present at all. -/
theorem parseAuxFile_merge :
    (∀ (fs : Str → Option Str) (auxPath l : Str),
        parseAuxFile fs auxPath l = lastRecord (allAuxRecords fs auxPath) l) ∧
      parseAuxFile fsEx (S "main.aux") (S "a")
        = some ⟨S "9", S "9", [], S "a"⟩ ∧
      parseAuxFile fsEx (S "main.aux") (S "b")
        = some ⟨S "2", S "1", [], S "b"⟩ ∧
      parseAuxFile fsEx (S "main.aux") (S "g") = none := by
  refine ⟨?_, by decide, by decide, by decide⟩
  intro fs auxPath l
  unfold parseAuxFile allAuxRecords
  cases h : fs auxPath with
  | none => rfl
  | some content =>
    simp only
    have hfun :
        (fun (t : Str → Option LabelEntry) (f : Str) =>
            match fs f with
            | some child => (parseLabels child).foldl (fun t r => setLabel t r.1 r.2) t
            | none => t)
          = (fun (t : Str → Option LabelEntry) (f : Str) =>
              ((match fs f with
                | some child => parseLabels child
                | none => []) : List (Str × LabelEntry)).foldl
                (fun t r => setLabel t r.1 r.2) t) := by
      funext t f
      cases fs f <;> rfl
    rw [hfun,
        foldl_inputs_concat (fun f => match fs f with
          | some child => parseLabels child
          | none => []),
        ← List.foldl_append, foldl_setLabel]
    cases lastRecord _ l <;> rfl

theorem startsWith_append_self (p s : Str) : startsWith p (p ++ s) = true := by
  induction p with
  | nil => rfl
  | cons c cs ih => simp [startsWith, ih]

theorem stripPre_append_self (p s : Str) : stripPre p (p ++ s) = some s := by
  induction p with
  | nil => rfl
  | cons c cs ih => simp [stripPre, ih]

theorem firstIdx_of_startsWith (pat s : Str) (h : startsWith pat s = true) :
    firstIdx pat s = some 0 := by
  cases s with
  | nil =>
    cases pat with
    | nil => rfl
    | cons p ps => simp [startsWith] at h
  | cons c cs => simp [firstIdx, h]

theorem firstIdx_cons_neg (pat : Str) (c : Char) (cs : Str)
    (h : startsWith pat (c :: cs) = false) :
    firstIdx pat (c :: cs) = (firstIdx pat cs).map (· + 1) := by
  simp [firstIdx, h]

theorem startsWith_split (pat : Str) : ∀ (x b : Str),
    startsWith pat (x ++ b) = true →
    startsWith pat x = true ∨ startsWith x pat = true := by
  induction pat with
  | nil => intro x b _; left; rfl
  | cons p ps ih =>
    intro x b h
    cases x with
    | nil => right; rfl
    | cons c cs =>
      simp only [List.cons_append, startsWith, Bool.and_eq_true, beq_iff_eq] at h
      obtain ⟨hpc, h2⟩ := h
      rcases ih cs b h2 with h' | h'
      · left; simp [startsWith, hpc, h']
      · right; simp [startsWith, hpc.symm, h']

theorem firstIdx_append_skip (pat : Str) : ∀ (a b : Str),
    canStartIn pat a = false →
    firstIdx pat (a ++ b) = (firstIdx pat b).map (· + a.length) := by
  intro a
  induction a with
  | nil =>
    intro b _
    simp only [List.nil_append, List.length_nil]
    cases firstIdx pat b <;> rfl
  | cons c cs ih =>
    intro b h
    simp only [canStartIn, Bool.or_eq_false_iff] at h
    obtain ⟨⟨h1, h2⟩, h3⟩ := h
    have hsw : startsWith pat ((c :: cs) ++ b) = false := by
      cases hq : startsWith pat ((c :: cs) ++ b) with
      | false => rfl
      | true =>
        rcases startsWith_split pat (c :: cs) b hq with h' | h'
        · rw [h'] at h2; exact h2
        · rw [h'] at h1; exact h1
    rw [List.cons_append, firstIdx_cons_neg _ _ _ (by simpa using hsw), ih b h3]
    cases firstIdx pat b with
    | none => rfl
    | some v => simp [List.length_cons]; omega

theorem canStartIn_false_of_head (h : Char) (pt : Str) : ∀ (a : Str),
    (∀ c ∈ a, c ≠ h) → canStartIn (h :: pt) a = false := by
  intro a
  induction a with
  | nil => intro _; rfl
  | cons c cs ih =>
    intro ha
    have hc : c ≠ h := ha c (by simp)
    simp only [canStartIn, Bool.or_eq_false_iff]
    refine ⟨⟨?_, ?_⟩, ih (fun x hx => ha x (by simp [hx]))⟩
    · simp [startsWith, hc]
    · have : ¬ (h = c) := fun hh => hc hh.symm
      simp [startsWith, this]

theorem firstIdx_none_of_head (h : Char) (pt : Str) : ∀ (s : Str),
    (∀ c ∈ s, c ≠ h) → firstIdx (h :: pt) s = none := by
  intro s
  induction s with
  | nil => intro _; rfl
  | cons c cs ih =>
    intro hs
    have hc : ¬ (h = c) := fun hh => hs c (by simp) hh.symm
    have hsw : startsWith (h :: pt) (c :: cs) = false := by simp [startsWith, hc]
    rw [firstIdx_cons_neg _ _ _ hsw, ih (fun x hx => hs x (by simp [hx]))]
    rfl

theorem digToNat_digitChar (d : Nat) (hd : d < 10) :
    digToNat (Nat.digitChar d) = d := by
  interval_cases d <;> rfl

theorem digitChar_mem_digits (d : Nat) (hd : d < 10) :
    Nat.digitChar d ∈ S "0123456789" := by
  interval_cases d <;> decide

theorem toDigitsCore_foldl (fuel : Nat) : ∀ (n : Nat) (ds : Str), n < fuel →
    (Nat.toDigitsCore 10 fuel n ds).foldl (fun a c => 10 * a + digToNat c) 0
      = ds.foldl (fun a c => 10 * a + digToNat c) n := by
  induction fuel with
  | zero => intro n ds h; omega
  | succ f ih =>
    intro n ds h
    simp only [Nat.toDigitsCore]
    by_cases h10 : n / 10 = 0
    · rw [if_pos h10]
      simp only [List.foldl]
      rw [digToNat_digitChar _ (Nat.mod_lt _ (by norm_num))]
      congr 1
      omega
    · rw [if_neg h10]
      have hnz : n ≠ 0 := fun hz => h10 (by simp [hz])
      have hlt : n / 10 < f := by
        have : n / 10 < n := Nat.div_lt_self (Nat.pos_of_ne_zero hnz) (by norm_num)
        omega
      rw [ih (n / 10) _ hlt]
      simp only [List.foldl]
      rw [digToNat_digitChar _ (Nat.mod_lt _ (by norm_num))]
      congr 1
      omega

theorem decValue_natDigits (n : Nat) : decValue (natDigits n) = n := by
  unfold decValue natDigits Nat.toDigits
  simpa using toDigitsCore_foldl (n + 1) n [] (by omega)

theorem natDigits_inj (m n : Nat) (h : natDigits m = natDigits n) : m = n := by
  have := congrArg decValue h
  rwa [decValue_natDigits, decValue_natDigits] at this

theorem toDigitsCore_ne_nil (fuel : Nat) : ∀ (n : Nat) (ds : Str), ds ≠ [] →
    Nat.toDigitsCore 10 fuel n ds ≠ [] := by
  induction fuel with
  | zero => intro n ds h; exact h
  | succ f ih =>
    intro n ds h
    simp only [Nat.toDigitsCore]
    by_cases h10 : n / 10 = 0
    · rw [if_pos h10]; simp
    · rw [if_neg h10]; exact ih (n / 10) _ (by simp)

theorem natDigits_ne_nil (n : Nat) : natDigits n ≠ [] := by
  unfold natDigits Nat.toDigits
  simp only [Nat.toDigitsCore]
  by_cases h10 : n / 10 = 0
  · rw [if_pos h10]; simp
  · rw [if_neg h10]; exact toDigitsCore_ne_nil n (n / 10) _ (by simp)

theorem toDigitsCore_mem_digits (fuel : Nat) : ∀ (n : Nat) (ds : Str),
    (∀ c ∈ ds, c ∈ S "0123456789") →
    ∀ c ∈ Nat.toDigitsCore 10 fuel n ds, c ∈ S "0123456789" := by
  induction fuel with
  | zero => intro n ds h; exact h
  | succ f ih =>
    intro n ds h
    simp only [Nat.toDigitsCore]
    by_cases h10 : n / 10 = 0
    · rw [if_pos h10]
      intro c hc
      rcases List.mem_cons.mp hc with hc | hc
      · rw [hc]; exact digitChar_mem_digits _ (Nat.mod_lt _ (by norm_num))
      · exact h c hc
    · rw [if_neg h10]
      refine ih (n / 10) _ ?_
      intro c hc
      rcases List.mem_cons.mp hc with hc | hc
      · rw [hc]; exact digitChar_mem_digits _ (Nat.mod_lt _ (by norm_num))
      · exact h c hc

theorem natDigits_mem (n : Nat) : ∀ c ∈ natDigits n, c ∈ S "0123456789" :=
  toDigitsCore_mem_digits (n + 1) n [] (by intro c hc; cases hc)

theorem findEnd_le (text : Str) (fuel : Nat) : ∀ (sp d e : Nat),
    findEnd text fuel sp d = some (some e) → sp ≤ e := by
  induction fuel with
  | zero => intro sp d e h; cases h
  | succ f ih =>
    intro sp d e h
    simp only [findEnd] at h
    by_cases hsp : sp < text.length
    · rw [if_pos hsp] at h
      cases he : firstIdx ePf (text.drop sp) with
      | none => rw [he] at h; cases h
      | some nextEnd =>
        rw [he] at h
        dsimp only at h
        cases hb : firstIdx bPf (text.drop sp) with
        | some nextBegin =>
          rw [hb] at h
          dsimp only at h
          by_cases hlt : nextBegin < nextEnd
          · rw [if_pos hlt] at h
            have := ih _ _ _ h
            omega
          · rw [if_neg hlt] at h
            by_cases hd : d = 1
            · rw [if_pos hd] at h
              cases h
              omega
            · rw [if_neg hd] at h
              have := ih _ _ _ h
              omega
        | none =>
          rw [hb] at h
          dsimp only at h
          by_cases hd : d = 1
          · rw [if_pos hd] at h
            cases h
            omega
          · rw [if_neg hd] at h
            have := ih _ _ _ h
            omega
    · rw [if_neg hsp] at h
      cases h

theorem findEnd_isSome (text : Str) (fuel : Nat) : ∀ (sp d : Nat),
    text.length - sp < fuel → findEnd text fuel sp d ≠ none := by
  induction fuel with
  | zero => intro sp d h; omega
  | succ f ih =>
    intro sp d h
    simp only [findEnd]
    by_cases hsp : sp < text.length
    · rw [if_pos hsp]
      cases he : firstIdx ePf (text.drop sp) with
      | none => simp
      | some nextEnd =>
        dsimp only
        cases hb : firstIdx bPf (text.drop sp) with
        | some nextBegin =>
          dsimp only
          by_cases hlt : nextBegin < nextEnd
          · rw [if_pos hlt]
            refine ih _ _ ?_
            have hbp : 0 < bPf.length := by decide
            omega
          · rw [if_neg hlt]
            by_cases hd : d = 1
            · rw [if_pos hd]; simp
            · rw [if_neg hd]
              refine ih _ _ ?_
              have hep : 0 < ePf.length := by decide
              omega
        | none =>
          dsimp only
          by_cases hd : d = 1
          · rw [if_pos hd]; simp
          · rw [if_neg hd]
            refine ih _ _ ?_
            have hep : 0 < ePf.length := by decide
            omega
    · rw [if_neg hsp]; simp

theorem extractProofsAux_isSome (text : Str) (clock : Nat → Nat) (fuel : Nat) :
    ∀ (pos : Nat) (used : List Str) (ctr : Nat) (acc : List ProofElem),
      text.length - pos < fuel →
      extractProofsAux text clock fuel pos used ctr acc ≠ none := by
  induction fuel with
  | zero => intro pos used ctr acc h; omega
  | succ f ih =>
    intro pos used ctr acc h
    simp only [extractProofsAux]
    by_cases hpos : pos < text.length
    · rw [if_pos hpos]
      cases hb : firstIdx bPf (text.drop pos) with
      | none => simp
      | some idx =>
        simp only
        have hbp : bPf.length = 13 := by decide
        cases hfe : findEnd text (text.length + 1)
            (pos + idx + (bPf.length +
              (match
                (match matchOptTitle ((text.drop pos).drop (idx + bPf.length)) with
                 | some (t, _) => some t
                 | none => none) with
               | some t => t.length + 2
               | none => 0))) 1 with
        | none =>
          exact absurd hfe (findEnd_isSome text _ _ _ (by omega))
        | some r =>
          cases r with
          | none =>
            refine ih _ _ _ _ ?_
            omega
          | some endPos =>
            have hle := findEnd_le text _ _ _ _ hfe
            have hep : ePf.length = 11 := by decide
            refine ih _ _ _ _ ?_
            omega
    · rw [if_neg hpos]; simp

/-- C10: `extractProofs` terminates on every input: with fuel `text.length + 1`
(one unit per outer iteration, the cursor advancing past each extracted proof
or past an unmatched begin token, and similarly for the inner depth-tracking
loop) the scan always completes — it never runs out of fuel, on any text. -/
theorem extractProofs_terminates (text : Str) (clock : Nat → Nat) :
    (extractProofsAux text clock (text.length + 1) 0 [] 0 []).isSome = true := by
  cases h : extractProofsAux text clock (text.length + 1) 0 [] 0 [] with
  | none => exact absurd h (extractProofsAux_isSome text clock _ 0 [] 0 [] (by omega))
  | some r => rfl

theorem contains_iff_mem (l : List Str) (x : Str) : l.contains x = true ↔ x ∈ l := by
  simp [List.contains]

theorem disambGo_mem (used : List Str) (base : Str) : ∀ (f k : Nat) (cur : Str),
    disambGo used base f cur k ∈ used →
    cur ∈ used ∧ ∀ j, k ≤ j → j < k + f → (base ++ S "-" ++ natDigits j) ∈ used := by
  intro f
  induction f with
  | zero =>
    intro k cur h
    exact ⟨h, fun j hj1 hj2 => absurd hj2 (by omega)⟩
  | succ f ih =>
    intro k cur h
    simp only [disambGo] at h
    by_cases hc : used.contains cur = true
    · rw [if_pos hc] at h
      obtain ⟨hk, hall⟩ := ih (k + 1) _ h
      refine ⟨(contains_iff_mem used cur).mp hc, fun j hj1 hj2 => ?_⟩
      by_cases hjk : j = k
      · rw [hjk]; exact hk
      · exact hall j (by omega) (by omega)
    · rw [if_neg hc] at h
      exact absurd ((contains_iff_mem used cur).mpr h) hc

theorem disambiguate_not_mem (used : List Str) (base : Str) :
    disambiguate used base ∉ used := by
  intro hmem
  obtain ⟨_, hall⟩ := disambGo_mem used base (used.length + 1) 1 base hmem
  have hinj : Function.Injective (fun i : Nat => base ++ S "-" ++ natDigits (i + 1)) := by
    intro i j hij
    simp only at hij
    have h1 := List.append_cancel_left hij
    have := natDigits_inj _ _ h1
    omega
  have hnodup : ((List.range (used.length + 1)).map
      (fun i => base ++ S "-" ++ natDigits (i + 1))).Nodup :=
    (List.nodup_range _).map hinj
  have hsub : ∀ x ∈ (List.range (used.length + 1)).map
      (fun i => base ++ S "-" ++ natDigits (i + 1)), x ∈ used := by
    intro x hx
    obtain ⟨i, hi, rfl⟩ := List.mem_map.mp hx
    have hi' := List.mem_range.mp hi
    exact hall (i + 1) (by omega) (by omega)
  have hcard1 : ((List.range (used.length + 1)).map
      (fun i => base ++ S "-" ++ natDigits (i + 1))).toFinset.card = used.length + 1 := by
    rw [List.toFinset_card_of_nodup hnodup]
    simp
  have hsubF : ((List.range (used.length + 1)).map
      (fun i => base ++ S "-" ++ natDigits (i + 1))).toFinset ⊆ used.toFinset := by
    intro x hx
    exact List.mem_toFinset.mpr (hsub x (List.mem_toFinset.mp hx))
  have := Finset.card_le_card hsubF
  have := used.toFinset_card_le
  omega

/-- C6 counterexample: on a document whose first proof is titled `num 1` (title
slug id `proof-num-1`) and whose second proof is untitled and unlabelled, the
numeric fallback assigns the second proof the id `proof-num-1` as well — with
no disambiguating suffix — so the stable ids of one document are not pairwise
distinct. -/
theorem stable_ids_collide :
    (extractProofs (fun _ => 0) collisionText).map (·.stableId)
        = [S "proof-num-1", S "proof-num-1"] ∧
      ¬ ((extractProofs (fun _ => 0) collisionText).map (·.stableId)).Nodup :=
  ⟨by decide, by decide⟩

/-- C6 (amended): ids derived from a preceding label or from a title slug are
disambiguated against the set of already-assigned ids — the collision loop of
`extractProofs` always lands on an id not yet used, appending an incrementing
suffix — as on a document with two identically-titled proofs, whose second id
carries the suffix `-1`; the numeric fallback `proof-num-<ordinal>`, however,
is assigned without any collision check and can coincide with an earlier
derived id (see the counterexample). -/
theorem stable_ids_disambiguated :
    (∀ (used : List Str) (base : Str), disambiguate used base ∉ used) ∧
      (extractProofs (fun _ => 0) twoTitledText).map (·.stableId)
        = [S "proof-t", S "proof-t-1"] :=
  ⟨disambiguate_not_mem, by decide⟩

theorem extractProofsAux_clock_idView (text : Str) (c₁ c₂ : Nat → Nat)
    (fuel : Nat) : ∀ (pos : Nat) (used : List Str) (ctr : Nat)
    (acc₁ acc₂ : List ProofElem), acc₁.map idView = acc₂.map idView →
    (extractProofsAux text c₁ fuel pos used ctr acc₁).map (List.map idView)
      = (extractProofsAux text c₂ fuel pos used ctr acc₂).map (List.map idView) := by
  induction fuel with
  | zero => intro pos used ctr acc₁ acc₂ _; rfl
  | succ f ih =>
    intro pos used ctr acc₁ acc₂ hacc
    simp only [extractProofsAux]
    by_cases hpos : pos < text.length
    · rw [if_pos hpos, if_pos hpos]
      cases hb : firstIdx bPf (text.drop pos) with
      | none => simp [hacc]
      | some idx =>
        dsimp only
        cases hfe : findEnd text (text.length + 1)
            (pos + idx + (bPf.length +
              (match
                (match matchOptTitle ((text.drop pos).drop (idx + bPf.length)) with
                 | some (t, _) => some t
                 | none => none) with
               | some t => t.length + 2
               | none => 0))) 1 with
        | none => rfl
        | some r =>
          cases r with
          | none => exact ih _ _ _ _ _ hacc
          | some endPos =>
            refine ih _ _ _ _ _ ?_
            simp [hacc, idView]
    · rw [if_neg hpos, if_neg hpos]
      simp [hacc]

/-- C5 (amended): the identifiers that persisted UI state is keyed by are
deterministic where they come from the extractors — the stable ids (and all
other non-content fields) of `extractProofs` do not depend on the ambient
clock, and the theorem elements (whose collapsible ids derive from label,
title and per-type ordinal) take no clock input at all — but the nested
subproof ids of `processNestedProofs` embed `Date.now()` and change between
conversions of unchanged source (see the counterexample). -/
theorem ids_deterministic (c₁ c₂ : Nat → Nat) (labels : Str → Option LabelEntry)
    (text : Str) :
    (extractProofs c₁ text).map idView = (extractProofs c₂ text).map idView ∧
      (extractAll labels c₁ text).theorems = (extractAll labels c₂ text).theorems := by
  refine ⟨?_, rfl⟩
  unfold extractProofs
  have h := extractProofsAux_clock_idView text c₁ c₂ (text.length + 1) 0 [] 0 [] [] rfl
  cases h₁ : extractProofsAux text c₁ (text.length + 1) 0 [] 0 [] with
  | none =>
    cases h₂ : extractProofsAux text c₂ (text.length + 1) 0 [] 0 [] with
    | none => rfl
    | some r₂ => rw [h₁, h₂] at h; cases h
  | some r₁ =>
    cases h₂ : extractProofsAux text c₂ (text.length + 1) 0 [] 0 [] with
    | none => rw [h₁, h₂] at h; cases h
    | some r₂ =>
      rw [h₁, h₂] at h
      simpa using h

/-- C5 counterexample: the nested-subproof id embeds the ambient timestamp
(`Date.now()`, modelled by the clock parameter): the same proof content
rendered at two different clock values yields different HTML, so the generated
body is not a deterministic function of the source text and label table
alone. -/
theorem subproof_ids_time_dependent :
    processNestedProofs (fun _ => 0) (S "\\begin\x7bproof\x7dx\\end\x7bproof\x7d")
      ≠ processNestedProofs (fun _ => 1) (S "\\begin\x7bproof\x7dx\\end\x7bproof\x7d") := by
  decide

theorem maskOne_eq (t : Str) (s l : Nat) (h : s + l ≤ t.length) :
    maskOne t s l = t.take s ++ List.replicate l ' ' ++ t.drop (s + l) := by
  unfold maskOne
  rw [jsSubstring_of_le _ _ _ le_rfl (by omega) (by omega),
      jsSubstring_of_le _ _ _ (by omega) (by omega) le_rfl]
  have h1 : ((s : Int)).toNat = s := by omega
  have h2 : ((s : Int) + (l : Int)).toNat = s + l := by omega
  rw [h1, h2, Int.toNat_natCast, List.take_length]
  simp

theorem maskOne_length (t : Str) (s l : Nat) (h : s + l ≤ t.length) :
    (maskOne t s l).length = t.length := by
  rw [maskOne_eq t s l h]
  simp only [List.length_append, List.length_take, List.length_replicate,
    List.length_drop]
  omega

theorem maskOne_outside (t : Str) (s l i : Nat) (h : s + l ≤ t.length)
    (hi : i < s ∨ s + l ≤ i) : (maskOne t s l)[i]? = t[i]? := by
  rw [maskOne_eq t s l h]
  rcases hi with hi | hi
  · rw [List.getElem?_append_left
      (by simp only [List.length_append, List.length_take, List.length_replicate]; omega)]
    rw [List.getElem?_append_left (by simp only [List.length_take]; omega)]
    rw [List.getElem?_take_of_lt hi]
  · rw [List.getElem?_append_right
      (by simp only [List.length_append, List.length_take, List.length_replicate]; omega)]
    rw [List.getElem?_drop]
    congr 1
    simp only [List.length_append, List.length_take, List.length_replicate]
    omega

theorem maskOne_inside (t : Str) (s l i : Nat) (h : s + l ≤ t.length)
    (h1 : s ≤ i) (h2 : i < s + l) : (maskOne t s l)[i]? = some ' ' := by
  rw [maskOne_eq t s l h]
  rw [List.getElem?_append_left
    (by simp only [List.length_append, List.length_take, List.length_replicate]; omega)]
  rw [List.getElem?_append_right (by simp only [List.length_take]; omega)]
  rw [List.getElem?_replicate_of_lt (by simp only [List.length_take]; omega)]

theorem maskBoxes_props (text : Str) (boxes : List (Nat × Nat))
    (h : ∀ b ∈ boxes, b.1 + b.2 ≤ text.length) :
    (maskBoxes text boxes).length = text.length ∧
      (∀ i, (∀ b ∈ boxes, i < b.1 ∨ b.1 + b.2 ≤ i) →
          (maskBoxes text boxes)[i]? = text[i]?) ∧
      (∀ i b, b ∈ boxes → b.1 ≤ i → i < b.1 + b.2 →
          (maskBoxes text boxes)[i]? = some ' ') := by
  induction boxes with
  | nil => exact ⟨rfl, fun i _ => rfl, fun i b hb => absurd hb (by simp)⟩
  | cons b bs ih =>
    obtain ⟨ihlen, ihout, ihin⟩ := ih (fun x hx => h x (by simp [hx]))
    have hb := h b (by simp)
    have hmb : maskBoxes text (b :: bs) = maskOne (maskBoxes text bs) b.1 b.2 := rfl
    have hbb : b.1 + b.2 ≤ (maskBoxes text bs).length := by rw [ihlen]; exact hb
    refine ⟨?_, ?_, ?_⟩
    · rw [hmb, maskOne_length _ _ _ hbb, ihlen]
    · intro i hi
      rw [hmb, maskOne_outside _ _ _ _ hbb (hi b (by simp))]
      exact ihout i (fun x hx => hi x (by simp [hx]))
    · intro i x hx h1 h2
      rcases List.mem_cons.mp hx with rfl | hx
      · rw [hmb]
        exact maskOne_inside _ _ _ _ hbb h1 h2
      · rw [hmb]
        by_cases hib : b.1 ≤ i ∧ i < b.1 + b.2
        · exact maskOne_inside _ _ _ _ hbb hib.1 hib.2
        · rw [maskOne_outside _ _ _ _ hbb (by omega)]
          exact ihin i x hx h1 h2

/-- C4 (amended): the masked copy built by `convertLaTeXToHTML` has the same
length as the original, blanks exactly the Phase-1 (theorem/proof) spans and
leaves every character outside them unchanged, and the enumerate and itemize
scans run over that masked copy — so a list inside a proof body is not
extracted as a top-level element (on the example document the itemize scan of
the masked text finds nothing although the raw text contains one itemize).
Figures and sections, however, are scanned over the original unmasked text
(see the counterexample). -/
theorem phase2_masking :
    (∀ (text : Str) (boxes : List (Nat × Nat)),
        (∀ b ∈ boxes, b.1 + b.2 ≤ text.length) →
        (maskBoxes text boxes).length = text.length ∧
          (∀ i, (∀ b ∈ boxes, i < b.1 ∨ b.1 + b.2 ≤ i) →
              (maskBoxes text boxes)[i]? = text[i]?) ∧
          (∀ i b, b ∈ boxes → b.1 ≤ i → i < b.1 + b.2 →
              (maskBoxes text boxes)[i]? = some ' ')) ∧
      (extractAll emptyLabels (fun _ => 0) listInProofText).masked
          = List.replicate listInProofText.length ' ' ∧
      (extractAll emptyLabels (fun _ => 0) listInProofText).itemizes = [] ∧
      (extractItemizes listInProofText).length = 1 :=
  ⟨maskBoxes_props, by decide, by decide, by decide⟩

theorem phase2_masking_witness :
    (maskBoxes (S "abcd") [(1, 2)]).length = (S "abcd").length ∧
      (maskBoxes (S "abcd") [(1, 2)])[0]? = (S "abcd")[0]? ∧
      (maskBoxes (S "abcd") [(1, 2)])[1]? = some ' ' :=
  ⟨(phase2_masking.1 (S "abcd") [(1, 2)] (by decide)).1,
   (phase2_masking.1 (S "abcd") [(1, 2)] (by decide)).2.1 0 (by decide),
   (phase2_masking.1 (S "abcd") [(1, 2)] (by decide)).2.2 1 (1, 2) (by decide)
     (by decide) (by decide)⟩

/-- C4 counterexample: figures are not scanned over the masked copy — on a
document whose only figure lies inside a theorem body, `extractFigures` (run by
`convertLaTeXToHTML` on the original text, before masking) extracts that figure
as an independent top-level element whose span lies strictly inside the
theorem's span, while the figure scan of the masked copy finds nothing. -/
theorem figures_scanned_unmasked :
    (extractAll emptyLabels (fun _ => 0) figInThmText).figures.map
        (fun f => (f.startIndex, f.fullMatch.length)) = [(16, 45)] ∧
      (extractAll emptyLabels (fun _ => 0) figInThmText).theorems.map
        (fun t => (t.startIndex, t.fullMatch.length)) = [(0, 74)] ∧
      figInThmText.length = 74 ∧
      extractFigures ((extractAll emptyLabels (fun _ => 0) figInThmText).masked)
        = [] :=
  ⟨by decide, by decide, by decide, by decide⟩

theorem replaceAllWith_nil (m : Str → Option (Str × Str)) (f : Nat) :
    replaceAllWith m f [] = [] := by
  cases f <;> rfl

theorem replaceAllWith_step (m : Str → Option (Str × Str)) (fuel : Nat)
    (s r rest : Str) (hf : 1 ≤ fuel) (hs : s ≠ []) (hm : m s = some (r, rest)) :
    replaceAllWith m fuel s = r ++ replaceAllWith m (fuel - 1) rest := by
  cases s with
  | nil => exact absurd rfl hs
  | cons c cs =>
    cases fuel with
    | zero => omega
    | succ f =>
      simp only [replaceAllWith, hm]
      simp

theorem replaceAllWith_skip (m : Str → Option (Str × Str)) (a : Str) :
    ∀ (b : Str) (fuel : Nat), a.length ≤ fuel →
      (∀ i, i < a.length → m (a.drop i ++ b) = none) →
      replaceAllWith m fuel (a ++ b) = a ++ replaceAllWith m (fuel - a.length) b := by
  induction a with
  | nil => intro b fuel _ _; simp
  | cons c cs ih =>
    intro b fuel hf h
    cases fuel with
    | zero => simp at hf
    | succ f =>
      have h0 := h 0 (by simp)
      simp only [List.drop_zero] at h0
      rw [List.cons_append] at h0 ⊢
      simp only [replaceAllWith, h0]
      rw [ih b f (by simpa using hf) (fun i hi => by
        have := h (i + 1) (by simpa using hi)
        simpa using this)]
      have hfl : f + 1 - (cs.length + 1) = f - cs.length := by omega
      simp only [List.length_cons, hfl, List.cons_append]

theorem replaceAllWith_noMatch (m : Str → Option (Str × Str)) (s : Str)
    (fuel : Nat) (hf : s.length ≤ fuel)
    (h : ∀ i, i < s.length → m (s.drop i) = none) :
    replaceAllWith m fuel s = s := by
  have := replaceAllWith_skip m s [] fuel (by simpa using hf)
    (fun i hi => by simpa using h i hi)
  simpa [replaceAllWith_nil] using this

theorem replaceAllWith_skip_head (m : Str → Option (Str × Str))
    (hm : ∀ (c : Char) (x : Str), c ≠ '\\' → m (c :: x) = none) (a b : Str)
    (fuel : Nat) (hf : a.length ≤ fuel) (ha : ∀ c ∈ a, c ≠ '\\') :
    replaceAllWith m fuel (a ++ b) = a ++ replaceAllWith m (fuel - a.length) b := by
  refine replaceAllWith_skip m a b fuel hf (fun i hi => ?_)
  rw [List.drop_eq_getElem_cons hi, List.cons_append]
  exact hm _ _ (ha _ (List.getElem_mem hi))

theorem replaceAllWith_id_head (m : Str → Option (Str × Str))
    (hm : ∀ (c : Char) (x : Str), c ≠ '\\' → m (c :: x) = none) (s : Str)
    (fuel : Nat) (hf : s.length ≤ fuel) (hs : ∀ c ∈ s, c ≠ '\\') :
    replaceAllWith m fuel s = s := by
  refine replaceAllWith_noMatch m s fuel hf (fun i hi => ?_)
  rw [List.drop_eq_getElem_cons hi]
  exact hm _ _ (hs _ (List.getElem_mem hi))

theorem findFirstWith_skip {α : Type} (m : Str → Option α) (a : Str) :
    ∀ (b : Str) (fuel : Nat), a.length ≤ fuel →
      (∀ i, i < a.length → m (a.drop i ++ b) = none) →
      findFirstWith m fuel (a ++ b) = findFirstWith m (fuel - a.length) b := by
  induction a with
  | nil => intro b fuel _ _; simp
  | cons c cs ih =>
    intro b fuel hf h
    cases fuel with
    | zero => simp at hf
    | succ f =>
      have h0 := h 0 (by simp)
      simp only [List.drop_zero] at h0
      rw [List.cons_append] at h0 ⊢
      simp only [findFirstWith, h0]
      rw [ih b f (by simpa using hf) (fun i hi => by
        have := h (i + 1) (by simpa using hi)
        simpa using this)]
      have hfl : f + 1 - (cs.length + 1) = f - cs.length := by omega
      simp only [List.length_cons, hfl]

theorem findFirstWith_found {α : Type} (m : Str → Option α) (s : Str)
    (fuel : Nat) (v : α) (hf : 1 ≤ fuel) (hs : s ≠ []) (hm : m s = some v) :
    findFirstWith m fuel s = some v := by
  cases s with
  | nil => exact absurd rfl hs
  | cons c cs =>
    cases fuel with
    | zero => omega
    | succ f => simp only [findFirstWith, hm]

theorem readUntil_no_stop (stop : Char) (a : Str) :
    ∀ (b : Str), (∀ c ∈ a, c ≠ stop) →
      readUntil stop (a ++ (stop :: b)) = some (a, b) := by
  induction a with
  | nil => intro b _; simp [readUntil]
  | cons c cs ih =>
    intro b ha
    have hc : ¬ (c = stop) := ha c (by simp)
    simp only [List.cons_append, readUntil, if_neg hc]
    rw [show cs.append (stop :: b) = cs ++ (stop :: b) from rfl,
        ih b (fun x hx => ha x (by simp [hx]))]
    rfl

theorem takeWhile_all_append (p : Char → Bool) (a : Str) :
    ∀ (d : Char) (b : Str), (∀ c ∈ a, p c = true) → p d = false →
      (a ++ (d :: b)).takeWhile p = a ∧ (a ++ (d :: b)).dropWhile p = d :: b := by
  induction a with
  | nil =>
    intro d b _ hd
    constructor
    · simp [List.takeWhile_cons, hd]
    · simp [List.dropWhile_cons, hd]
  | cons c cs ih =>
    intro d b ha hd
    have hc : p c = true := ha c (by simp)
    obtain ⟨h1, h2⟩ := ih d b (fun x hx => ha x (by simp [hx])) hd
    constructor
    · simp [List.takeWhile_cons, hc, h1]
    · simp [List.dropWhile_cons, hc, h2]

theorem dropWhile_cons_false (p : Char → Bool) (c : Char) (l : Str)
    (h : p c = false) : List.dropWhile p (c :: l) = c :: l := by
  simp [List.dropWhile_cons, h]

theorem head?_append_left (a b : Str) (h : a ≠ []) :
    (a ++ b).head? = a.head? := by
  cases a with
  | nil => exact absurd rfl h
  | cons c cs => rfl

theorem jsTrim_eq_self (s : Str) (h1 : ∀ c, s.head? = some c → isSpc c = false)
    (h2 : ∀ c, s.reverse.head? = some c → isSpc c = false) :
    jsTrim s = s := by
  unfold jsTrim
  have hd : s.dropWhile isSpc = s := by
    cases s with
    | nil => rfl
    | cons c cs => exact dropWhile_cons_false _ _ _ (h1 c rfl)
  rw [hd]
  have hr : s.reverse.dropWhile isSpc = s.reverse := by
    cases hrev : s.reverse with
    | nil => rfl
    | cons c cs =>
      refine dropWhile_cons_false _ _ _ (h2 c ?_)
      rw [hrev]
      rfl
  rw [hr, List.reverse_reverse]

theorem natDigits_props (n : Nat) : ∀ c ∈ natDigits n,
    c ≠ '\\' ∧ c ≠ cbr ∧ c.isDigit = true := by
  have hall : ∀ c ∈ S "0123456789", c ≠ '\\' ∧ c ≠ cbr ∧ c.isDigit = true := by decide
  exact fun c hc => hall c (natDigits_mem n c hc)

theorem take_len_self (a b : Str) : (a ++ b).take a.length = a := by
  have h := take_len_app a b 0
  rw [Nat.add_zero] at h
  simp [h]

theorem startsWith_self (p : Str) : startsWith p p = true := by
  have := startsWith_append_self p []
  simpa using this

theorem canStartIn_false_of_head_eq (pat : Str) (h : Char) (pt : Str)
    (hp : pat = h :: pt) (a : Str) (ha : ∀ c ∈ a, c ≠ h) :
    canStartIn pat a = false :=
  hp ▸ canStartIn_false_of_head h pt a ha

theorem matchEnumerateAt_enumInput (N : Nat) :
    matchEnumerateAt (enumInput N)
      = some (none,
          S "\\setcounter\x7benumi\x7d\x7b" ++ (natDigits N ++ S "\x7d\\item a"),
          enumInput N, []) := by
  have hdec : enumInput N
      = S "\\begin\x7benumerate\x7d" ++ (S "\\setcounter\x7benumi\x7d\x7b" ++
          (natDigits N ++ (S "\x7d\\item a" ++ S "\\end\x7benumerate\x7d"))) := by
    unfold enumInput
    rw [show (S "\\begin\x7benumerate\x7d\\setcounter\x7benumi\x7d\x7b" : Str)
          = S "\\begin\x7benumerate\x7d" ++ S "\\setcounter\x7benumi\x7d\x7b" from by decide,
        show (S "\x7d\\item a\\end\x7benumerate\x7d" : Str)
          = S "\x7d\\item a" ++ S "\\end\x7benumerate\x7d" from by decide]
    simp [List.append_assoc]
  conv_lhs => rw [hdec]
  unfold matchEnumerateAt
  rw [stripPre_append_self]
  dsimp only
  have hopt : matchOptTitle (S "\\setcounter\x7benumi\x7d\x7b" ++
      (natDigits N ++ (S "\x7d\\item a" ++ S "\\end\x7benumerate\x7d"))) = none := rfl
  rw [hopt]
  dsimp only
  have hidx : firstIdx (S "\\end\x7benumerate\x7d")
      (S "\\setcounter\x7benumi\x7d\x7b" ++
        (natDigits N ++ (S "\x7d\\item a" ++ S "\\end\x7benumerate\x7d")))
      = some (0 + (S "\x7d\\item a").length + (natDigits N).length +
          (S "\\setcounter\x7benumi\x7d\x7b").length) := by
    rw [firstIdx_append_skip _ _ _ (by decide),
        firstIdx_append_skip _ _ _
          (canStartIn_false_of_head_eq (S "\\end\x7benumerate\x7d") '\\'
            (S "end\x7benumerate\x7d") (by decide) (natDigits N)
            (fun c hc => (natDigits_props N c hc).1)),
        firstIdx_append_skip _ _ _ (by decide),
        firstIdx_of_startsWith _ _ (startsWith_self _)]
    rfl
  rw [hidx]
  dsimp only
  have h1 : 0 + (S "\x7d\\item a").length + (natDigits N).length +
      (S "\\setcounter\x7benumi\x7d\x7b").length
      = (S "\\setcounter\x7benumi\x7d\x7b").length +
          ((natDigits N).length + (S "\x7d\\item a").length) := by
    omega
  have htake : (S "\\setcounter\x7benumi\x7d\x7b" ++
      (natDigits N ++ (S "\x7d\\item a" ++ S "\\end\x7benumerate\x7d"))).take
        (0 + (S "\x7d\\item a").length + (natDigits N).length +
          (S "\\setcounter\x7benumi\x7d\x7b").length)
      = S "\\setcounter\x7benumi\x7d\x7b" ++ (natDigits N ++ S "\x7d\\item a") := by
    rw [h1, take_len_app, take_len_app, take_len_self]
  have hdrop : (S "\\setcounter\x7benumi\x7d\x7b" ++
      (natDigits N ++ (S "\x7d\\item a" ++ S "\\end\x7benumerate\x7d"))).drop
        (0 + (S "\x7d\\item a").length + (natDigits N).length +
          (S "\\setcounter\x7benumi\x7d\x7b").length +
          (S "\\end\x7benumerate\x7d").length)
      = [] := by
    refine List.drop_eq_nil_of_le ?_
    simp only [List.length_append]
    omega
  rw [htake, hdrop,
      show S "\\begin\x7benumerate\x7d" ++
          (S "\\setcounter\x7benumi\x7d\x7b" ++ (natDigits N ++ S "\x7d\\item a")) ++
          S "\\end\x7benumerate\x7d" = enumInput N from by
        rw [hdec]; simp [List.append_assoc]]

theorem isEmpty_false_of_ne_nil (l : Str) (h : l ≠ []) : l.isEmpty = false := by
  cases l with
  | nil => exact absurd rfl h
  | cons c cs => rfl

theorem contentN_length (N : Nat) :
    (S "\\setcounter\x7benumi\x7d\x7b" ++ (natDigits N ++ S "\x7d\\item a")).length
      = 27 + (natDigits N).length := by
  simp only [List.length_append]
  have h1 : (S "\\setcounter\x7benumi\x7d\x7b" : Str).length = 19 := by decide
  have h2 : (S "\x7d\\item a" : Str).length = 8 := by decide
  omega

theorem matchSetcounterAt_contentN (N : Nat) :
    matchSetcounterAt (S "\\setcounter\x7benumi\x7d\x7b" ++ (natDigits N ++ S "\x7d\\item a"))
      = some (S "\\item a") := by
  rw [show (S "\\setcounter\x7benumi\x7d\x7b" : Str)
        = S "\\setcounter\x7benum" ++ S "i\x7d\x7b" from by decide,
      List.append_assoc]
  unfold matchSetcounterAt
  rw [stripPre_append_self]
  have hspan : (S "i\x7d\x7b" ++ (natDigits N ++ S "\x7d\\item a")).span (fun c => c == 'i')
      = (S "i", S "\x7d\x7b" ++ (natDigits N ++ S "\x7d\\item a")) := rfl
  simp only [Option.bind_eq_bind, Option.some_bind, hspan]
  rw [show ((S "i" : Str).isEmpty) = false from rfl]
  simp only [Bool.false_eq_true, if_false]
  rw [stripPre_append_self]
  simp only [Option.some_bind]
  rw [show (S "\x7d\\item a" : Str) = cbr :: S "\\item a" from by decide,
      readUntil_no_stop cbr (natDigits N) (S "\\item a")
        (fun c hc => (natDigits_props N c hc).2.1)]
  simp only [Option.some_bind]
  rw [isEmpty_false_of_ne_nil _ (natDigits_ne_nil N)]
  rfl

theorem findSetcounter_enumInput (N : Nat) :
    findSetcounterEnumi ((enumInput N).length + 1) (enumInput N) = some N := by
  have hdec : enumInput N
      = S "\\begin\x7benumerate\x7d" ++ (S "\\setcounter\x7benumi\x7d\x7b" ++
          (natDigits N ++ (S "\x7d\\item a" ++ S "\\end\x7benumerate\x7d"))) := by
    unfold enumInput
    rw [show (S "\\begin\x7benumerate\x7d\\setcounter\x7benumi\x7d\x7b" : Str)
          = S "\\begin\x7benumerate\x7d" ++ S "\\setcounter\x7benumi\x7d\x7b" from by decide,
        show (S "\x7d\\item a\\end\x7benumerate\x7d" : Str)
          = S "\x7d\\item a" ++ S "\\end\x7benumerate\x7d" from by decide]
    simp [List.append_assoc]
  have hlen : (enumInput N).length = 59 + (natDigits N).length := by
    rw [hdec]
    simp only [List.length_append]
    have h1 : (S "\\begin\x7benumerate\x7d" : Str).length = 17 := by decide
    have h2 : (S "\\setcounter\x7benumi\x7d\x7b" : Str).length = 19 := by decide
    have h3 : (S "\x7d\\item a" : Str).length = 8 := by decide
    have h4 : (S "\\end\x7benumerate\x7d" : Str).length = 15 := by decide
    omega
  have hlen2 : (S "\\begin\x7benumerate\x7d" ++ (S "\\setcounter\x7benumi\x7d\x7b" ++
      (natDigits N ++ (S "\x7d\\item a" ++ S "\\end\x7benumerate\x7d")))).length
      = 59 + (natDigits N).length := by
    rw [← hdec]; exact hlen
  unfold findSetcounterEnumi
  conv_lhs => rw [hdec]
  rw [findFirstWith_skip _ (S "\\begin\x7benumerate\x7d") _ _
      (by rw [hlen2]
          have h17 : (S "\\begin\x7benumerate\x7d" : Str).length = 17 := by decide
          omega)
      (by intro i hi
          have h17 : (S "\\begin\x7benumerate\x7d" : Str).length = 17 := by decide
          rw [h17] at hi
          interval_cases i <;> rfl)]
  refine findFirstWith_found _ _ _ _ ?_ ?_ ?_
  · have h17 : (S "\\begin\x7benumerate\x7d" : Str).length = 17 := by decide
    rw [hlen2, h17]
    omega
  · intro hcontra
    have := congrArg List.length hcontra
    simp only [List.length_append, List.length_nil] at this
    have h2 : (S "\\setcounter\x7benumi\x7d\x7b" : Str).length = 19 := by decide
    omega
  · unfold matchSetcounterDigitsAt
    rw [stripPre_append_self]
    simp only [Option.bind_eq_bind, Option.some_bind]
    have hspan : (natDigits N ++ (S "\x7d\\item a" ++ S "\\end\x7benumerate\x7d")).span
        Char.isDigit = (natDigits N, S "\x7d\\item a" ++ S "\\end\x7benumerate\x7d") := by
      rw [show (S "\x7d\\item a" ++ S "\\end\x7benumerate\x7d" : Str)
            = cbr :: (S "\\item a" ++ S "\\end\x7benumerate\x7d") from by decide]
      have := takeWhile_all_append Char.isDigit (natDigits N) cbr
        (S "\\item a" ++ S "\\end\x7benumerate\x7d")
        (fun c hc => (natDigits_props N c hc).2.2) (by decide)
      simp only [List.span_eq_take_drop, this.1, this.2]
    rw [hspan]
    simp only
    rw [isEmpty_false_of_ne_nil _ (natDigits_ne_nil N)]
    simp only [Bool.false_eq_true, if_false]
    rw [show (S "\x7d\\item a" ++ S "\\end\x7benumerate\x7d" : Str)
          = cbr :: (S "\\item a" ++ S "\\end\x7benumerate\x7d") from by decide]
    simp only [if_pos rfl]
    rw [decValue_natDigits]
    simp

theorem jsTrim_contentN (N : Nat) :
    jsTrim (S "\\setcounter\x7benumi\x7d\x7b" ++ (natDigits N ++ S "\x7d\\item a"))
      = S "\\setcounter\x7benumi\x7d\x7b" ++ (natDigits N ++ S "\x7d\\item a") := by
  refine jsTrim_eq_self _ ?_ ?_
  · intro c hc
    rw [head?_append_left _ _ (by decide)] at hc
    rw [show (S "\\setcounter\x7benumi\x7d\x7b" : Str).head? = some '\\' from rfl] at hc
    cases hc
    decide
  · intro c hc
    have hne : ((S "\x7d\\item a" : Str).reverse ++ (natDigits N).reverse) ≠ [] := by
      simp only [ne_eq, List.append_eq_nil, List.reverse_eq_nil_iff, not_and]
      intro h
      exact absurd h (by decide)
    rw [List.reverse_append, List.reverse_append,
        head?_append_left _ _ hne, head?_append_left _ _ (by decide)] at hc
    rw [show ((S "\x7d\\item a" : Str).reverse).head? = some 'a' from rfl] at hc
    cases hc
    decide

theorem removeSetcounter_contentN (N : Nat) :
    removeAllWith matchSetcounterAt
      ((S "\\setcounter\x7benumi\x7d\x7b" ++ (natDigits N ++ S "\x7d\\item a")).length + 1)
      (S "\\setcounter\x7benumi\x7d\x7b" ++ (natDigits N ++ S "\x7d\\item a"))
      = S "\\item a" := by
  unfold removeAllWith
  rw [replaceAllWith_step _ _ _ [] (S "\\item a") (by omega)
      (by simp only [ne_eq, List.append_eq_nil, not_and]
          intro h
          exact absurd h (by decide))
      (by simp only [matchSetcounterAt_contentN]; rfl)]
  rw [List.nil_append]
  refine replaceAllWith_noMatch _ _ _ ?_ ?_
  · rw [contentN_length]
    have h7 : (S "\\item a" : Str).length = 7 := by decide
    omega
  · decide

/-- The four fully concrete tail steps of the enumerate callback on the
content `\item a`. -/
theorem enumTail_concrete :
    removeAllWith matchStepcounterAt ((S "\\item a" : Str).length + 1) (S "\\item a")
        = S "\\item a"
    ∧ removeAllWith matchAddtocounterAt ((S "\\item a" : Str).length + 1) (S "\\item a")
        = S "\\item a"
    ∧ replaceItems ((S "\\item a" : Str).length + 1) (S "\\item a")
        = S "</li><li>a" := by
  decide

theorem enumHtml_enumInput (N : Nat) :
    enumHtml none (S "\\setcounter\x7benumi\x7d\x7b" ++ (natDigits N ++ S "\x7d\\item a"))
        (enumInput N)
      = S "<ol start=\x22" ++ natDigits (N + 1) ++ S "\x22><li>a</li></ol>" := by
  simp only [enumHtml]
  rw [jsTrim_contentN, removeSetcounter_contentN,
      enumTail_concrete.1, enumTail_concrete.2.1, enumTail_concrete.2.2,
      show (if startsWith (S "</li>") (S "</li><li>a")
              then (S "</li><li>a" : Str).drop 5 else S "</li><li>a")
            = S "<li>a" from by decide,
      show (if endsWith (S "</li>") (S "<li>a")
              then (S "<li>a" : Str) else S "<li>a" ++ S "</li>")
            = S "<li>a</li>" from by decide,
      findSetcounter_enumInput]
  dsimp only
  rw [show (S " start=\x22" ++ natDigits (N + 1) ++ S "\x22" : Str)
        = S " start=\x22" ++ (natDigits (N + 1) ++ S "\x22") from by
      rw [List.append_assoc]]
  rw [show (S "<ol" ++ ([] : Str) : Str) = S "<ol" from by simp,
      ← List.append_assoc (S "<ol") (S " start=\x22"),
      show (S "<ol" ++ S " start=\x22" : Str) = S "<ol start=\x22" from by decide]
  simp only [List.append_assoc]
  rw [show (S "\x22" ++ (S ">" ++ (S "<li>a</li>" ++ S "</ol>")) : Str)
        = S "\x22><li>a</li></ol>" from by decide]

theorem matchItemizeAt_head_ne (c : Char) (x : Str) (hc : c ≠ '\\') :
    matchItemizeAt (c :: x) = none := by
  unfold matchItemizeAt
  rw [show (S "\\begin\x7bitemize\x7d" : Str) = '\\' :: S "begin\x7bitemize\x7d" from by decide]
  unfold stripPre
  rw [if_neg (fun h => hc h.symm)]

/-- C9 (amended): an enumerate environment inside a theorem or proof body is
converted by `convertListsInContent`, and a `\setcounter\x7benumi\x7d\x7bN\x7d`
before its first item does shift the numbering: for every `N`, the environment
`\begin\x7benumerate\x7d\setcounter\x7benumi\x7d\x7bN\x7d\item a\end\x7benumerate\x7d`
becomes an ordered list carrying a `start="N+1"` attribute. The original
claim's universal scope is wrong for top-level enumerates, which are rendered
by `generateEnumerateHTML` instead — see the counterexample. -/
theorem enumerate_setcounter_start (N : Nat) :
    convertListsInContent (enumInput N)
      = S "<ol start=\x22" ++ natDigits (N + 1) ++ S "\x22><li>a</li></ol>" := by
  have hne : enumInput N ≠ [] := by
    intro h
    have h2 := congrArg List.length h
    unfold enumInput at h2
    simp only [List.length_append, List.length_nil] at h2
    have h36 : (S "\\begin\x7benumerate\x7d\\setcounter\x7benumi\x7d\x7b" : Str).length
        = 36 := by decide
    omega
  have h1 : convertEnumScan ((enumInput N).length + 1) (enumInput N)
      = S "<ol start=\x22" ++ natDigits (N + 1) ++ S "\x22><li>a</li></ol>" := by
    unfold convertEnumScan
    rw [replaceAllWith_step _ ((enumInput N).length + 1) (enumInput N)
        (enumHtml none
          (S "\\setcounter\x7benumi\x7d\x7b" ++ (natDigits N ++ S "\x7d\\item a"))
          (enumInput N)) []
        (by omega) hne
        (by simp only [matchEnumerateAt_enumInput]; rfl)]
    rw [replaceAllWith_nil, List.append_nil, enumHtml_enumInput]
  rw [show convertListsInContent (enumInput N)
        = convertItemizeScan
            ((convertEnumScan ((enumInput N).length + 1) (enumInput N)).length + 1)
            (convertEnumScan ((enumInput N).length + 1) (enumInput N)) from rfl,
      h1]
  unfold convertItemizeScan
  refine replaceAllWith_id_head _ ?_ _ _ (by omega) ?_
  · intro c x hc
    simp only [matchItemizeAt_head_ne c x hc]
    rfl
  · intro c hc
    rw [List.append_assoc] at hc
    rcases List.mem_append.mp hc with h | h
    · exact (by decide : ∀ d ∈ S "<ol start=\x22", d ≠ '\\') c h
    · rcases List.mem_append.mp h with h2 | h2
      · exact (natDigits_props _ c h2).1
      · exact (by decide : ∀ d ∈ S "\x22><li>a</li></ol>", d ≠ '\\') c h2

/-- C9 (counterexample): a top-level enumerate environment is extracted by
`extractEnumerates` and rendered by `generateEnumerateHTML`, which emits no
`start` attribute at all; the `\setcounter\x7benumi\x7d\x7b5\x7d` command is
not even stripped and leaks verbatim into the generated list markup. -/
theorem enumerate_setcounter_ignored_at_top_level :
    (extractEnumerates (enumInput 5)).map generateEnumerateHTML
        = [S "<ol>\\setcounter\x7benumi\x7d\x7b5\x7d</li><li>a</li></ol>"]
    ∧ containsSub (S " start=")
        (S "<ol>\\setcounter\x7benumi\x7d\x7b5\x7d</li><li>a</li></ol>") = false := by
  decide

theorem firstIdx_none_of_head_eq (pat : Str) (h : Char) (pt : Str)
    (hp : pat = h :: pt) (s : Str) (hs : ∀ c ∈ s, c ≠ h) :
    firstIdx pat s = none :=
  hp ▸ firstIdx_none_of_head h pt s hs

theorem nestProof_length (n : Nat) : (nestProof n).length = 24 * n + 1 := by
  induction n with
  | zero => rfl
  | succ k ih =>
    simp only [nestProof, List.length_append, ih]
    have h1 : bPf.length = 13 := by decide
    have h2 : ePf.length = 11 := by decide
    omega

theorem repList_succ_assoc (a : Str) (k : Nat) (b : Str) :
    repList a (k + 1) ++ b = a ++ (repList a k ++ b) := by
  simp [repList, List.append_assoc]

theorem firstIdx_bPf_none (suf : Str) (hsuf : ∀ c ∈ suf, c ≠ '\\') :
    ∀ m, firstIdx bPf (repList ePf m ++ suf) = none := by
  intro m
  induction m with
  | zero =>
    simp only [repList, List.nil_append]
    exact firstIdx_none_of_head_eq bPf '\\' (S "begin\x7bproof\x7d") (by decide) suf hsuf
  | succ k ih =>
    rw [repList_succ_assoc, firstIdx_append_skip bPf ePf _ (by decide), ih]
    rfl

theorem firstIdx_ePf_repList (suf : Str) (m : Nat) :
    firstIdx ePf (repList ePf (m + 1) ++ suf) = some 0 := by
  rw [repList_succ_assoc]
  exact firstIdx_of_startsWith _ _ (startsWith_append_self ePf _)

theorem drop_ePf (m : Nat) (suf : Str) :
    (repList ePf (m + 1) ++ suf).drop 11 = repList ePf m ++ suf := by
  rw [repList_succ_assoc]
  have h := drop_len_app ePf (repList ePf m ++ suf) 0
  rw [show ePf.length + 0 = 11 from by decide] at h
  simpa using h

theorem repList_ePf_cons (m : Nat) (suf : Str) :
    repList ePf (m + 1) ++ suf = '\\' :: (S "end\x7bproof\x7d" ++ (repList ePf m ++ suf)) := by
  rw [repList_succ_assoc, show ePf = '\\' :: S "end\x7bproof\x7d" from by decide,
      List.cons_append]

/-- The unwind stage of the inner end-finding loop of `extractProofs`: with
only end tokens remaining and the nesting depth no larger than their count,
the loop pops one depth per end token and reports the end that brings the
depth to 1. -/
theorem findEnd_unwind (text suf : Str) (hsuf : ∀ c ∈ suf, c ≠ '\\') :
    ∀ d m sp fuel, 1 ≤ d → d ≤ m → d ≤ fuel →
      text.drop sp = repList ePf m ++ suf →
      findEnd text fuel sp d = some (some (sp + 11 * (d - 1))) := by
  intro d
  induction d with
  | zero => intro m sp fuel h1; omega
  | succ d ih =>
    intro m sp fuel h1 hm hf hdrop
    cases fuel with
    | zero => omega
    | succ f =>
      obtain ⟨m2, rfl⟩ : ∃ m2, m = m2 + 1 := ⟨m - 1, by omega⟩
      have hlt : sp < text.length := by
        by_contra hc
        have h0 : text.drop sp = [] := List.drop_eq_nil_of_le (by omega)
        rw [hdrop, repList_ePf_cons] at h0
        exact List.cons_ne_nil _ _ h0
      simp only [findEnd]
      rw [if_pos hlt, hdrop, firstIdx_ePf_repList, firstIdx_bPf_none suf hsuf]
      dsimp only
      by_cases hd : d = 0
      · subst hd
        rw [if_pos rfl]
      · rw [if_neg (by omega : ¬ (d + 1 = 1))]
        have hdrop2 : text.drop (sp + 0 + ePf.length) = repList ePf m2 ++ suf := by
          have hE : ePf.length = 11 := by decide
          rw [hE, show sp + 0 + 11 = sp + 11 from by omega, ← List.drop_drop, hdrop,
              drop_ePf]
        rw [show d + 1 - 1 = d from by omega,
            ih m2 (sp + 0 + ePf.length) f (by omega) (by omega) (by omega) hdrop2]
        have hE : ePf.length = 11 := by decide
        simp only [Option.some.injEq]
        omega

theorem firstIdx_ePf_exists (suf : Str) : ∀ n m,
    ∃ e, firstIdx ePf (nestProof n ++ (repList ePf (m + 1) ++ suf)) = some e := by
  intro n
  induction n with
  | zero =>
    intro m
    refine ⟨1, ?_⟩
    rw [show nestProof 0 ++ (repList ePf (m + 1) ++ suf)
          = 'x' :: (repList ePf (m + 1) ++ suf) from rfl,
        firstIdx_cons_neg _ _ _ (by rfl), firstIdx_ePf_repList]
    rfl
  | succ k ih =>
    intro m
    obtain ⟨e, he⟩ := ih (m + 1)
    refine ⟨e + bPf.length, ?_⟩
    rw [show nestProof (k + 1) ++ (repList ePf (m + 1) ++ suf)
          = bPf ++ (nestProof k ++ (repList ePf (m + 2) ++ suf)) from by
        simp [nestProof, repList, List.append_assoc],
        firstIdx_append_skip ePf bPf _ (by decide), he]
    rfl

/-- The descend stage of the inner end-finding loop of `extractProofs`: each
nested `\begin\x7bproof\x7d` found before the next end token increments the
depth, and the loop then unwinds through the matching end tokens; on the
nesting `nestProof n` followed by `m ≥ depth` end tokens the loop reports the
position of the end token matching the current depth. -/
theorem findEnd_descend (text suf : Str) (hsuf : ∀ c ∈ suf, c ≠ '\\') :
    ∀ n m sp d fuel, 1 ≤ d → d ≤ m → 2 * n + d ≤ fuel →
      text.drop sp = nestProof n ++ (repList ePf m ++ suf) →
      findEnd text fuel sp d
        = some (some (sp + 13 * n + 1 + 11 * (n + d - 1))) := by
  intro n
  induction n with
  | zero =>
    intro m sp d fuel h1 hm hf hdrop
    cases fuel with
    | zero => omega
    | succ f =>
      obtain ⟨m2, rfl⟩ : ∃ m2, m = m2 + 1 := ⟨m - 1, by omega⟩
      have hx : text.drop sp = 'x' :: (repList ePf (m2 + 1) ++ suf) := by
        rw [hdrop]; rfl
      have hlt : sp < text.length := by
        by_contra hc
        have h0 : text.drop sp = [] := List.drop_eq_nil_of_le (by omega)
        rw [hx] at h0
        exact List.cons_ne_nil _ _ h0
      simp only [findEnd]
      rw [if_pos hlt, hx, firstIdx_cons_neg ePf _ _ (by rfl), firstIdx_ePf_repList,
          firstIdx_cons_neg bPf _ _ (by rfl), firstIdx_bPf_none suf hsuf]
      dsimp only [Option.map]
      by_cases hd : d = 1
      · subst hd
        rw [if_pos rfl]
      · rw [if_neg hd]
        have hdrop2 : text.drop (sp + (0 + 1) + ePf.length)
            = repList ePf m2 ++ suf := by
          have hE : ePf.length = 11 := by decide
          rw [hE, show sp + (0 + 1) + 11 = sp + 12 from by omega, ← List.drop_drop, hx,
              show (12 : Nat) = 11 + 1 from rfl, List.drop_succ_cons]
          exact drop_ePf m2 suf
        rw [findEnd_unwind text suf hsuf (d - 1) m2 (sp + (0 + 1) + ePf.length) f
            (by omega) (by omega) (by omega) hdrop2]
        have hE : ePf.length = 11 := by decide
        simp only [Option.some.injEq]
        omega
  | succ k ih =>
    intro m sp d fuel h1 hm hf hdrop
    cases fuel with
    | zero => omega
    | succ f =>
      have hshape : text.drop sp
          = bPf ++ (nestProof k ++ (repList ePf (m + 1) ++ suf)) := by
        rw [hdrop]
        simp [nestProof, repList, List.append_assoc]
      have hlt : sp < text.length := by
        by_contra hc
        have h0 : text.drop sp = [] := List.drop_eq_nil_of_le (by omega)
        rw [hshape, show bPf = '\\' :: S "begin\x7bproof\x7d" from by decide,
            List.cons_append] at h0
        exact List.cons_ne_nil _ _ h0
      obtain ⟨e, he⟩ := firstIdx_ePf_exists suf k m
      simp only [findEnd]
      rw [if_pos hlt, hshape, firstIdx_append_skip ePf bPf _ (by decide), he,
          firstIdx_of_startsWith bPf _ (startsWith_append_self bPf _)]
      dsimp only [Option.map]
      rw [if_pos (show 0 < e + bPf.length by
            have hB : bPf.length = 13 := by decide
            omega)]
      have hdrop2 : text.drop (sp + 0 + bPf.length)
          = nestProof k ++ (repList ePf (m + 1) ++ suf) := by
        have hB : bPf.length = 13 := by decide
        rw [hB, show sp + 0 + 13 = sp + 13 from by omega, ← List.drop_drop, hshape]
        have h := drop_len_app bPf (nestProof k ++ (repList ePf (m + 1) ++ suf)) 0
        rw [show bPf.length + 0 = 13 from by decide] at h
        simpa using h
      rw [ih (m + 1) (sp + 0 + bPf.length) (d + 1) f (by omega) (by omega) (by omega)
          hdrop2]
      have hB : bPf.length = 13 := by decide
      simp only [Option.some.injEq]
      omega

theorem drop_len_self (a b : Str) : (a ++ b).drop a.length = b := by
  have h := drop_len_app a b 0
  rw [Nat.add_zero, List.drop_zero] at h
  exact h

theorem matchOptTitle_nest (n : Nat) (Z : Str) :
    matchOptTitle (nestProof n ++ Z) = none := by
  cases n with
  | zero => rfl
  | succ k =>
    rw [show nestProof (k + 1) ++ Z = bPf ++ (nestProof k ++ (ePf ++ Z)) from by
          simp [nestProof, List.append_assoc],
        show bPf = '\\' :: S "begin\x7bproof\x7d" from by decide, List.cons_append]
    rfl

/-- Once the remaining text holds no backslash, the outer scan of
`extractProofs` finds no further begin token and returns its accumulator. -/
theorem extractProofsAux_done (text : Str) (clock : Nat → Nat) (f pos : Nat)
    (used : List Str) (counter : Nat) (acc : List ProofElem) (hf : 1 ≤ f)
    (hdrop : ∀ c ∈ text.drop pos, c ≠ '\\') :
    extractProofsAux text clock f pos used counter acc = some acc := by
  cases f with
  | zero => omega
  | succ f2 =>
    simp only [extractProofsAux]
    by_cases hlt : pos < text.length
    · rw [if_pos hlt,
          firstIdx_none_of_head_eq bPf '\\' (S "begin\x7bproof\x7d") (by decide) _ hdrop]
    · rw [if_neg hlt]

/-- C1 (amended): a proof environment nesting further proof environments to any
depth is extracted by `extractProofs` as exactly one top-level element whose
recorded span runs over the whole nesting, from the outermost
`\begin\x7bproof\x7d` through the `\end\x7bproof\x7d` that closes it — the inner
end tokens never terminate the outer element early, and no inner proof becomes
a separate top-level element.  At one level of nesting the inner proof is also
rendered as a collapsible subproof block, as the claim says; at deeper nesting
the rendering of inner proofs breaks down (see the counterexample), so the
claim's rendering half does not hold to any depth. -/
theorem nested_proofs_single_element (n : Nat) (pre suf : Str) (clock : Nat → Nat)
    (hpre : ∀ c ∈ pre, c ≠ '\\') (hsuf : ∀ c ∈ suf, c ≠ '\\') :
    (extractProofs clock (pre ++ (nestProof (n + 1) ++ suf))).map
        (fun e => (e.startIndex, e.fullMatch))
      = [(pre.length, nestProof (n + 1))]
    ∧ (extractProofs (fun _ => 0) (nestProof 2)).map (fun e => e.content)
      = [subproofDiv (S "subproof-0-0") (S "Proof") (S "x")] := by
  have hB : bPf.length = 13 := by decide
  have hE : ePf.length = 11 := by decide
  have hTlen : (pre ++ (nestProof (n + 1) ++ suf)).length
      = pre.length + (24 * n + 25) + suf.length := by
    simp only [List.length_append, nestProof_length]
    omega
  constructor
  · have hsplit : nestProof (n + 1) ++ suf
        = bPf ++ (nestProof n ++ (ePf ++ suf)) := by
      simp [nestProof, List.append_assoc]
    have hfi : firstIdx bPf (pre ++ (nestProof (n + 1) ++ suf))
        = some (0 + pre.length) := by
      rw [firstIdx_append_skip bPf pre _
            (canStartIn_false_of_head_eq bPf '\\' (S "begin\x7bproof\x7d") (by decide)
              pre hpre),
          hsplit, firstIdx_of_startsWith bPf _ (startsWith_append_self bPf _)]
      rfl
    have hdropA : (pre ++ (nestProof (n + 1) ++ suf)).drop
        (0 + pre.length + bPf.length) = nestProof n ++ (ePf ++ suf) := by
      rw [show (0 : Nat) + pre.length + bPf.length = pre.length + bPf.length from by
            omega,
          hsplit, drop_len_app pre _ bPf.length, drop_len_self bPf _]
    have hrep1 : repList ePf 1 ++ suf = ePf ++ suf := by
      simp [repList]
    have hdropB : (pre ++ (nestProof (n + 1) ++ suf)).drop
        (0 + (0 + pre.length) + (bPf.length + 0))
        = nestProof n ++ (repList ePf 1 ++ suf) := by
      rw [show (0 : Nat) + (0 + pre.length) + (bPf.length + 0)
            = 0 + pre.length + bPf.length from by omega, hdropA, hrep1]
    have hFE := findEnd_descend (pre ++ (nestProof (n + 1) ++ suf)) suf hsuf n 1
      (0 + (0 + pre.length) + (bPf.length + 0)) 1
      ((pre ++ (nestProof (n + 1) ++ suf)).length + 1)
      (le_refl 1) (by omega) (by rw [hTlen]; omega) hdropB
    have hdropC : (pre ++ (nestProof (n + 1) ++ suf)).drop
        (pre.length + (24 * n + 25)) = suf := by
      rw [hsplit,
          show pre.length + (24 * n + 25)
            = pre.length + (bPf.length + ((nestProof n).length + (ePf.length + 0)))
            from by simp only [nestProof_length]; omega,
          drop_len_app pre _ _, drop_len_app bPf _ _, drop_len_app (nestProof n) _ _,
          drop_len_app ePf suf 0, List.drop_zero]
    have hfull : (pre ++ (nestProof (n + 1) ++ suf)).take
        (pre.length + (24 * n + 25)) = pre ++ nestProof (n + 1) := by
      rw [show pre.length + (24 * n + 25)
            = pre.length + (nestProof (n + 1)).length from by
            simp only [nestProof_length]; omega,
          take_len_app, take_len_self]
    unfold extractProofs
    simp only [extractProofsAux]
    rw [if_pos (show 0 < (pre ++ (nestProof (n + 1) ++ suf)).length from by
          rw [hTlen]; omega),
        List.drop_zero, hfi]
    dsimp only
    rw [hdropA, matchOptTitle_nest]
    dsimp only
    rw [hFE]
    dsimp only
    rw [show 0 + (0 + pre.length) + (bPf.length + 0) + 13 * n + 1
          + 11 * (n + 1 - 1) + ePf.length = pre.length + (24 * n + 25) from by omega]
    rw [extractProofsAux_done _ clock _ _ _ _ _
          (show 1 ≤ (pre ++ (nestProof (n + 1) ++ suf)).length from by
            rw [hTlen]; omega)
          (by rw [hdropC]; exact hsuf)]
    simp only [Option.getD_some, List.nil_append, List.map_cons, List.map_nil]
    rw [hfull,
        show (0 : Nat) + (0 + pre.length) = pre.length + 0 from by omega,
        drop_len_app pre _ 0, List.drop_zero]
    norm_num
  · decide

/-- C1 (counterexample): at two levels of nesting inside the extracted proof
(a proof in a proof in a proof), the flat non-greedy pass of
`processNestedProofs` renders only the first nested level as a subproof block:
the block's body keeps the raw `\begin\x7bproof\x7dx` text of the innermost
proof, and the innermost proof's closing `\end\x7bproof\x7d` is left dangling
after the block, so the inner proofs are not all rendered as nested
collapsible sub-elements. -/
theorem deep_nested_proof_left_raw :
    (extractProofs (fun _ => 0) (nestProof 3)).map (fun e => e.content)
      = [subproofDiv (S "subproof-0-0") (S "Proof") (S "\\begin\x7bproof\x7dx")
          ++ ePf] := by
  decide

theorem stripPre_head_ne (p : Str) (h : Char) (pt : Str) (hp : p = h :: pt)
    (c : Char) (x : Str) (hc : c ≠ h) : stripPre p (c :: x) = none := by
  subst hp
  unfold stripPre
  rw [if_neg (fun hh => hc hh.symm)]

theorem matchRefCmd_head_ne (c : Char) (x : Str) (hc : c ≠ '\\') :
    matchRefCmd refCmdToks (c :: x) = none := by
  rw [show refCmdToks
        = [S "\\ref\x7b", S "\\eqref\x7b", S "\\cref\x7b", S "\\Cref\x7b"] from rfl]
  simp only [matchRefCmd,
    stripPre_head_ne (S "\\ref\x7b") '\\' (S "ref\x7b") (by decide) c x hc,
    stripPre_head_ne (S "\\eqref\x7b") '\\' (S "eqref\x7b") (by decide) c x hc,
    stripPre_head_ne (S "\\cref\x7b") '\\' (S "cref\x7b") (by decide) c x hc,
    stripPre_head_ne (S "\\Cref\x7b") '\\' (S "Cref\x7b") (by decide) c x hc]

theorem matchAnyTok_head_ne (toks : List Str)
    (hh : ∀ t ∈ toks, t.head? = some '\\') (c : Char) (x : Str) (hc : c ≠ '\\') :
    matchAnyTok toks (c :: x) = none := by
  induction toks with
  | nil => rfl
  | cons t ts ih =>
    have ht := hh t (by simp)
    cases t with
    | nil => simp at ht
    | cons t0 tt =>
      have ht0 : t0 = '\\' := by simpa using ht
      subst ht0
      simp only [matchAnyTok, stripPre_head_ne ('\\' :: tt) '\\' tt rfl c x hc]
      exact ih (fun t2 h2 => hh t2 (by simp [h2]))

theorem skipPos_of_head (toks : List Str) (hh : ∀ t ∈ toks, t.head? = some '\\')
    (a : Str) (ha : ∀ c ∈ a, c ≠ '\\') (b : Str) :
    ∀ i, i < a.length → matchAnyTok toks (a.drop i ++ b) = none := by
  intro i hi
  rw [List.drop_eq_getElem_cons hi, List.cons_append]
  exact matchAnyTok_head_ne toks hh _ _ (ha _ (List.getElem_mem hi))

theorem skipPos_of_tail (toks : List Str) (hh : ∀ t ∈ toks, t.head? = some '\\')
    (a : Str) (h0 : ∀ b2, matchAnyTok toks (a ++ b2) = none)
    (ha : ∀ c ∈ a.drop 1, c ≠ '\\') (b : Str) :
    ∀ i, i < a.length → matchAnyTok toks (a.drop i ++ b) = none := by
  intro i hi
  cases i with
  | zero => rw [List.drop_zero]; exact h0 b
  | succ j =>
    have h2 : (a.drop 1).drop j = a.drop (j + 1) := by
      rw [List.drop_drop]
      congr 1
      omega
    cases hD : a.drop (j + 1) with
    | nil =>
      have hle := List.drop_eq_nil_iff.mp hD
      omega
    | cons ch rest =>
      refine matchAnyTok_head_ne toks hh ch _ (ha ch ?_)
      rw [← h2] at hD
      exact List.mem_of_mem_drop (hD ▸ List.mem_cons_self ch rest)

theorem skipPosRef_of_head (a : Str) (ha : ∀ c ∈ a, c ≠ '\\') (b : Str) :
    ∀ i, i < a.length → matchRefCmd refCmdToks (a.drop i ++ b) = none := by
  intro i hi
  rw [List.drop_eq_getElem_cons hi, List.cons_append]
  exact matchRefCmd_head_ne _ _ (ha _ (List.getElem_mem hi))

theorem skipPosRef_of_tail (a : Str)
    (h0 : ∀ b2, matchRefCmd refCmdToks (a ++ b2) = none)
    (ha : ∀ c ∈ a.drop 1, c ≠ '\\') (b : Str) :
    ∀ i, i < a.length → matchRefCmd refCmdToks (a.drop i ++ b) = none := by
  intro i hi
  cases i with
  | zero => rw [List.drop_zero]; exact h0 b
  | succ j =>
    have h2 : (a.drop 1).drop j = a.drop (j + 1) := by
      rw [List.drop_drop]
      congr 1
      omega
    cases hD : a.drop (j + 1) with
    | nil =>
      have hle := List.drop_eq_nil_iff.mp hD
      omega
    | cons ch rest =>
      refine matchRefCmd_head_ne ch _ (ha ch ?_)
      rw [← h2] at hD
      exact List.mem_of_mem_drop (hD ▸ List.mem_cons_self ch rest)

theorem matchAnyTok_begins_self (bt : Str) (h : bt ∈ mathBegins) (r : Str) :
    matchAnyTok mathBegins (bt ++ r) = some (bt, r) := by
  simp only [mathBegins, List.mem_cons, List.not_mem_nil, or_false] at h
  rcases h with rfl | rfl | rfl | rfl | rfl | rfl <;> rfl

theorem findMathEnd_at_end (et : Str) (h : et ∈ mathEnds) (x : Str) :
    findMathEnd (et ++ x) = some (0, et) := by
  simp only [mathEnds, List.mem_cons, List.not_mem_nil, or_false] at h
  rcases h with rfl | rfl | rfl | rfl | rfl | rfl <;> rfl

theorem matchAnyTok_begins_refTok (tok : Str) (h : tok ∈ refCmdToks) (x : Str) :
    matchAnyTok mathBegins (tok ++ x) = none := by
  simp only [refCmdToks, List.mem_cons, List.not_mem_nil, or_false] at h
  rcases h with rfl | rfl | rfl | rfl <;> rfl

theorem matchAnyTok_ends_refTok (tok : Str) (h : tok ∈ refCmdToks) (x : Str) :
    matchAnyTok mathEnds (tok ++ x) = none := by
  simp only [refCmdToks, List.mem_cons, List.not_mem_nil, or_false] at h
  rcases h with rfl | rfl | rfl | rfl <;> rfl

theorem matchRefCmd_envTok (t : Str) (h : t ∈ mathBegins ∨ t ∈ mathEnds) (x : Str) :
    matchRefCmd refCmdToks (t ++ x) = none := by
  rcases h with h | h <;>
  · simp only [mathBegins, mathEnds, List.mem_cons, List.not_mem_nil, or_false] at h
    rcases h with rfl | rfl | rfl | rfl | rfl | rfl <;> rfl

theorem envTok_facts (t : Str) (h : t ∈ mathBegins ∨ t ∈ mathEnds) :
    t ≠ [] ∧ (∀ c ∈ t.drop 1, c ≠ '\\') := by
  rcases h with h | h <;>
  · simp only [mathBegins, mathEnds, List.mem_cons, List.not_mem_nil, or_false] at h
    rcases h with rfl | rfl | rfl | rfl | rfl | rfl <;> exact ⟨by decide, by decide⟩

theorem refTok_facts (tok : Str) (h : tok ∈ refCmdToks) :
    tok ≠ [] ∧ (∀ c ∈ tok.drop 1, c ≠ '\\') := by
  simp only [refCmdToks, List.mem_cons, List.not_mem_nil, or_false] at h
  rcases h with rfl | rfl | rfl | rfl <;> exact ⟨by decide, by decide⟩

theorem matchRefCmd_cons_skip (t : Str) (ts : List Str) (s : Str)
    (h : stripPre t s = none) :
    matchRefCmd (t :: ts) s = matchRefCmd ts s := by
  simp only [matchRefCmd, h]

theorem matchRefCmd_cons_hit (t : Str) (ts : List Str) (l rest : Str)
    (hie : l.isEmpty = false) (hlc : ∀ c ∈ l, c ≠ cbr) :
    matchRefCmd (t :: ts) (t ++ (l ++ (cbr :: rest))) = some (l, rest) := by
  simp only [matchRefCmd, stripPre_append_self, readUntil_no_stop cbr l rest hlc,
    hie, Bool.false_eq_true, if_false]

theorem matchRefCmd_self (tok : Str) (h : tok ∈ refCmdToks) (l rest : Str)
    (hlne : l ≠ []) (hlc : ∀ c ∈ l, c ≠ cbr) :
    matchRefCmd refCmdToks (tok ++ (l ++ (cbr :: rest))) = some (l, rest) := by
  have hie : l.isEmpty = false := isEmpty_false_of_ne_nil l hlne
  rw [show refCmdToks
      = [S "\\ref\x7b", S "\\eqref\x7b", S "\\cref\x7b", S "\\Cref\x7b"] from rfl]
  simp only [refCmdToks, List.mem_cons, List.not_mem_nil, or_false] at h
  rcases h with rfl | rfl | rfl | rfl
  · rw [matchRefCmd_cons_hit _ _ l rest hie hlc]
  · rw [matchRefCmd_cons_skip _ _ _
          (show stripPre (S "\\ref\x7b")
              (S "\\eqref\x7b" ++ (l ++ (cbr :: rest))) = none from rfl),
        matchRefCmd_cons_hit _ _ l rest hie hlc]
  · rw [matchRefCmd_cons_skip _ _ _
          (show stripPre (S "\\ref\x7b")
              (S "\\cref\x7b" ++ (l ++ (cbr :: rest))) = none from rfl),
        matchRefCmd_cons_skip _ _ _
          (show stripPre (S "\\eqref\x7b")
              (S "\\cref\x7b" ++ (l ++ (cbr :: rest))) = none from rfl),
        matchRefCmd_cons_hit _ _ l rest hie hlc]
  · rw [matchRefCmd_cons_skip _ _ _
          (show stripPre (S "\\ref\x7b")
              (S "\\Cref\x7b" ++ (l ++ (cbr :: rest))) = none from rfl),
        matchRefCmd_cons_skip _ _ _
          (show stripPre (S "\\eqref\x7b")
              (S "\\Cref\x7b" ++ (l ++ (cbr :: rest))) = none from rfl),
        matchRefCmd_cons_skip _ _ _
          (show stripPre (S "\\cref\x7b")
              (S "\\Cref\x7b" ++ (l ++ (cbr :: rest))) = none from rfl),
        matchRefCmd_cons_hit _ _ l rest hie hlc]

theorem findMathEnd_skip (a : Str) : ∀ (b : Str),
    (∀ i, i < a.length → matchAnyTok mathEnds (a.drop i ++ b) = none) →
    findMathEnd (a ++ b) = (findMathEnd b).map (fun p => (p.1 + a.length, p.2)) := by
  induction a with
  | nil =>
    intro b _
    simp only [List.nil_append, List.length_nil]
    cases h : findMathEnd b with
    | none => rfl
    | some p => simp
  | cons c cs ih =>
    intro b h
    have h0 := h 0 (by simp)
    simp only [List.drop_zero] at h0
    rw [List.cons_append] at h0 ⊢
    simp only [findMathEnd, h0]
    rw [ih b (fun i hi => by
      have := h (i + 1) (by simpa using hi)
      simpa using this)]
    cases h2 : findMathEnd b with
    | none => rfl
    | some p => simp [Nat.add_assoc]

theorem mathRefScan_nil (labels : Str → Option LabelEntry) (f : Nat) :
    mathRefScan labels f [] = [] := by
  cases f <;> rfl

theorem mathRefScan_skip (labels : Str → Option LabelEntry) (a : Str) :
    ∀ (b : Str) (fuel : Nat), a.length ≤ fuel →
      (∀ i, i < a.length → matchAnyTok mathBegins (a.drop i ++ b) = none) →
      mathRefScan labels fuel (a ++ b)
        = a ++ mathRefScan labels (fuel - a.length) b := by
  induction a with
  | nil => intro b fuel _ _; simp
  | cons c cs ih =>
    intro b fuel hf h
    cases fuel with
    | zero => simp at hf
    | succ f =>
      have h0 := h 0 (by simp)
      simp only [List.drop_zero] at h0
      rw [List.cons_append] at h0 ⊢
      simp only [mathRefScan, h0]
      rw [ih b f (by simpa using hf) (fun i hi => by
        have := h (i + 1) (by simpa using hi)
        simpa using this)]
      have hfl : f + 1 - (cs.length + 1) = f - cs.length := by omega
      simp only [List.length_cons, hfl, List.cons_append]

theorem mathRefScan_id_head (labels : Str → Option LabelEntry) (s : Str)
    (fuel : Nat) (hf : s.length ≤ fuel) (hs : ∀ x ∈ s, x ≠ '\\') :
    mathRefScan labels fuel s = s := by
  have h := mathRefScan_skip labels s [] fuel (by simpa using hf)
    (skipPos_of_head mathBegins (by decide) s hs [])
  rw [List.append_nil, mathRefScan_nil, List.append_nil] at h
  exact h

theorem mathRefScan_found (labels : Str → Option LabelEntry) (fuel : Nat)
    (s r1 bt : Str) (i : Nat) (et : Str) (hf : 1 ≤ fuel) (hs : s ≠ [])
    (hbt : matchAnyTok mathBegins s = some (bt, r1))
    (hfe : findMathEnd r1 = some (i, et)) :
    mathRefScan labels fuel s
      = bareRefScan labels ((bt ++ r1.take i ++ et).length + 1)
          (bt ++ r1.take i ++ et)
        ++ mathRefScan labels (fuel - 1) (r1.drop (i + et.length)) := by
  cases s with
  | nil => exact absurd rfl hs
  | cons c cs =>
    cases fuel with
    | zero => omega
    | succ f =>
      simp only [mathRefScan, hbt, hfe]
      simp

/-- The in-math reference pass on one display-math block: each reference
command inside the block is replaced by `refBare` (the bare number or the
bracketed fallback) with no anchor markup. -/
theorem bareRefScan_block_eval (tbl : Str → Option LabelEntry)
    (bt b tok l c et : Str) (fuel : Nat)
    (hbt : bt ∈ mathBegins) (het : et ∈ mathEnds) (htok : tok ∈ refCmdToks)
    (hb : ∀ x ∈ b, x ≠ '\\') (hc : ∀ x ∈ c, x ≠ '\\')
    (hl2 : ∀ x ∈ l, x ≠ cbr) (hlne : l ≠ [])
    (hf : (bt ++ (b ++ (tok ++ (l ++ (cbr :: (c ++ et)))))).length + 1 ≤ fuel) :
    bareRefScan tbl fuel (bt ++ (b ++ (tok ++ (l ++ (cbr :: (c ++ et))))))
      = bt ++ (b ++ (refBare tbl l ++ (c ++ et))) := by
  have hbtf := envTok_facts bt (Or.inl hbt)
  have hetf := envTok_facts et (Or.inr het)
  have htokf := refTok_facts tok htok
  rw [show (bt ++ (b ++ (tok ++ (l ++ (cbr :: (c ++ et)))))).length
        = bt.length + (b.length + (tok.length + (l.length
            + (1 + (c.length + et.length))))) from by
      simp only [List.length_append, List.length_cons]
      omega] at hf
  unfold bareRefScan
  rw [replaceAllWith_skip _ bt _ fuel (by omega)
      (fun i hi => by
        simp only [skipPosRef_of_tail bt
          (matchRefCmd_envTok bt (Or.inl hbt)) hbtf.2 _ i hi]
        rfl)]
  rw [replaceAllWith_skip_head _
      (fun c2 x hc2 => by simp only [matchRefCmd_head_ne c2 x hc2]; rfl)
      b _ _ (by omega) hb]
  rw [replaceAllWith_step _ _ _ (refBare tbl l) (c ++ et) (by omega)
      (fun hX => htokf.1 (List.append_eq_nil.mp hX).1)
      (by simp only [matchRefCmd_self tok htok l (c ++ et) hlne hl2]; rfl)]
  rw [replaceAllWith_skip_head _
      (fun c2 x hc2 => by simp only [matchRefCmd_head_ne c2 x hc2]; rfl)
      c _ _ (by omega) hc]
  rw [replaceAllWith_noMatch _ et _ (by omega)
      (fun i hi => by
        have h2 := skipPosRef_of_tail et
          (matchRefCmd_envTok et (Or.inr het)) hetf.2 [] i hi
        rw [List.append_nil] at h2
        simp only [h2]
        rfl)]

/-- C8: for every display-math variant (`align`, `equation`, `gather`, starred
or not — the end token is even free to differ from the begin token, as in the
source regex), every reference command (`\ref`, `\eqref`, `\cref`, `\Cref`),
every label, every label table and every surrounding text free of further
commands, the reference command inside the math block is replaced by the bare
`refBare` value — the resolved number, or the bracketed `[label?]` fallback,
with no anchor markup — while the identical command in the prose after the
block is replaced by the `refAnchor` value: an anchor tag whose href is the
resolved anchor (falling back to the label) showing the resolved number, or a
flagged `ref-unknown` span carrying the label name when unresolved.  The
second and third conjuncts pin down the two replacement values on the resolved
and unresolved cases. -/
theorem refs_bare_in_math_linked_in_prose (tbl : Str → Option LabelEntry)
    (a bt b tok l c et d e : Str)
    (hbt : bt ∈ mathBegins) (het : et ∈ mathEnds) (htok : tok ∈ refCmdToks)
    (ha : ∀ x ∈ a, x ≠ '\\') (hb : ∀ x ∈ b, x ≠ '\\') (hc : ∀ x ∈ c, x ≠ '\\')
    (hd : ∀ x ∈ d, x ≠ '\\') (he : ∀ x ∈ e, x ≠ '\\')
    (hl1 : ∀ x ∈ l, x ≠ '\\') (hl2 : ∀ x ∈ l, x ≠ cbr) (hlne : l ≠ [])
    (hnum : ∀ en, tbl l = some en → ∀ x ∈ en.number, x ≠ '\\') :
    convertRefs tbl
        (a ++ (bt ++ (b ++ (tok ++ (l ++ (cbr ::
          (c ++ (et ++ (d ++ (tok ++ (l ++ (cbr :: e))))))))))))
      = a ++ (bt ++ (b ++ (refBare tbl l ++ (c ++ (et ++ (d ++
          (refAnchor tbl l ++ e)))))))
    ∧ (∀ en, tbl l = some en →
        refBare tbl l = en.number
        ∧ refAnchor tbl l
          = S "<a href=\x22#" ++ (if en.anchor.isEmpty then l else en.anchor)
            ++ S "\x22 class=\x22ref-link\x22>" ++ en.number ++ S "</a>")
    ∧ (tbl l = none →
        refBare tbl l = S "[" ++ l ++ S "?]"
        ∧ refAnchor tbl l
          = S "<span class=\x22ref-unknown\x22 title=\x22Reference not found: "
            ++ l ++ S "\x22>[" ++ l ++ S "?]</span>") := by
  have hbtf := envTok_facts bt (Or.inl hbt)
  have hetf := envTok_facts et (Or.inr het)
  have htokf := refTok_facts tok htok
  have hv : ∀ x ∈ refBare tbl l, x ≠ '\\' := by
    intro x hx
    unfold refBare at hx
    cases h : tbl l with
    | none =>
      rw [h] at hx
      rcases List.mem_append.mp hx with h2 | h2
      · rcases List.mem_append.mp h2 with h3 | h3
        · exact (by decide : ∀ y ∈ S "[", y ≠ '\\') x h3
        · exact hl1 x h3
      · exact (by decide : ∀ y ∈ S "?]", y ≠ '\\') x h2
    | some en =>
      rw [h] at hx
      exact hnum en h x hx
  refine ⟨?_, ?_, ?_⟩
  · unfold convertRefs applyMathRefs
    rw [mathRefScan_skip tbl a _ _
        (by simp only [List.length_append, List.length_cons]; omega)
        (skipPos_of_head mathBegins (by decide) a ha _)]
    rw [mathRefScan_found tbl _ _
        (b ++ (tok ++ (l ++ (cbr :: (c ++ (et ++ (d ++ (tok ++ (l ++ (cbr :: e))))))))))
        bt (0 + (cbr :: c).length + l.length + tok.length + b.length) et
        (by simp only [List.length_append, List.length_cons]; omega)
        (fun hX => hbtf.1 (List.append_eq_nil.mp hX).1)
        (matchAnyTok_begins_self bt hbt _)
        (by rw [show cbr :: (c ++ (et ++ (d ++ (tok ++ (l ++ (cbr :: e))))))
                  = (cbr :: c) ++ (et ++ (d ++ (tok ++ (l ++ (cbr :: e)))))
                from rfl]
            rw [findMathEnd_skip b _ (skipPos_of_head mathEnds (by decide) b hb _),
                findMathEnd_skip tok _ (skipPos_of_tail mathEnds (by decide) tok
                  (matchAnyTok_ends_refTok tok htok) htokf.2 _),
                findMathEnd_skip l _ (skipPos_of_head mathEnds (by decide) l hl1 _),
                findMathEnd_skip (cbr :: c) _
                  (skipPos_of_head mathEnds (by decide) (cbr :: c)
                    (fun x hx => by
                      rcases List.mem_cons.mp hx with rfl | hx2
                      · decide
                      · exact hc x hx2) _),
                findMathEnd_at_end et het]
            rfl)]
    rw [show b ++ (tok ++ (l ++ (cbr :: (c ++ (et ++ (d ++ (tok ++ (l ++ (cbr :: e)))))))))
          = (b ++ (tok ++ (l ++ (cbr :: c))))
            ++ (et ++ (d ++ (tok ++ (l ++ (cbr :: e))))) from by
        simp [List.append_assoc]]
    rw [show (0 : Nat) + (cbr :: c).length + l.length + tok.length + b.length
          = (b ++ (tok ++ (l ++ (cbr :: c)))).length from by
        simp only [List.length_append, List.length_cons]
        omega]
    rw [take_len_self, drop_len_app _ _ et.length, drop_len_self]
    rw [show bt ++ (b ++ (tok ++ (l ++ (cbr :: c)))) ++ et
          = bt ++ (b ++ (tok ++ (l ++ (cbr :: (c ++ et))))) from by
        simp [List.append_assoc]]
    rw [bareRefScan_block_eval tbl bt b tok l c et _ hbt het htok hb hc hl2
        hlne (le_refl _)]
    rw [mathRefScan_skip tbl d _ _
        (by simp only [List.length_append, List.length_cons]; omega)
        (skipPos_of_head mathBegins (by decide) d hd _)]
    rw [mathRefScan_skip tbl tok _ _
        (by simp only [List.length_append, List.length_cons]; omega)
        (skipPos_of_tail mathBegins (by decide) tok
          (matchAnyTok_begins_refTok tok htok) htokf.2 _)]
    rw [mathRefScan_skip tbl l _ _
        (by simp only [List.length_append, List.length_cons]; omega)
        (skipPos_of_head mathBegins (by decide) l hl1 _)]
    rw [mathRefScan_id_head tbl (cbr :: e) _
        (by simp only [List.length_append, List.length_cons]; omega)
        (fun x hx => by
          rcases List.mem_cons.mp hx with rfl | hx2
          · decide
          · exact he x hx2)]
    unfold processReferences refScan
    rw [show a ++ (bt ++ (b ++ (refBare tbl l ++ (c ++ et)))
            ++ (d ++ (tok ++ (l ++ (cbr :: e)))))
          = a ++ (bt ++ (b ++ (refBare tbl l ++ (c ++ (et ++ (d ++ (tok ++
              (l ++ (cbr :: e))))))))) from by
        simp [List.append_assoc]]
    rw [replaceAllWith_skip _ a _ _
        (by simp only [List.length_append, List.length_cons]; omega)
        (fun i hi => by
          simp only [skipPosRef_of_head a ha _ i hi]
          rfl)]
    rw [replaceAllWith_skip _ bt _ _
        (by simp only [List.length_append, List.length_cons]; omega)
        (fun i hi => by
          simp only [skipPosRef_of_tail bt
            (matchRefCmd_envTok bt (Or.inl hbt)) hbtf.2 _ i hi]
          rfl)]
    rw [replaceAllWith_skip_head _
        (fun c2 x hc2 => by simp only [matchRefCmd_head_ne c2 x hc2]; rfl)
        b _ _ (by simp only [List.length_append, List.length_cons]; omega) hb]
    rw [replaceAllWith_skip_head _
        (fun c2 x hc2 => by simp only [matchRefCmd_head_ne c2 x hc2]; rfl)
        (refBare tbl l) _ _
        (by simp only [List.length_append, List.length_cons]; omega) hv]
    rw [replaceAllWith_skip_head _
        (fun c2 x hc2 => by simp only [matchRefCmd_head_ne c2 x hc2]; rfl)
        c _ _ (by simp only [List.length_append, List.length_cons]; omega) hc]
    rw [replaceAllWith_skip _ et _ _
        (by simp only [List.length_append, List.length_cons]; omega)
        (fun i hi => by
          simp only [skipPosRef_of_tail et
            (matchRefCmd_envTok et (Or.inr het)) hetf.2 _ i hi]
          rfl)]
    rw [replaceAllWith_skip_head _
        (fun c2 x hc2 => by simp only [matchRefCmd_head_ne c2 x hc2]; rfl)
        d _ _ (by simp only [List.length_append, List.length_cons]; omega) hd]
    rw [replaceAllWith_step _ _ _ (refAnchor tbl l) e
        (by simp only [List.length_append, List.length_cons]; omega)
        (fun hX => htokf.1 (List.append_eq_nil.mp hX).1)
        (by simp only [matchRefCmd_self tok htok l e hlne hl2]; rfl)]
    rw [replaceAllWith_id_head _
        (fun c2 x hc2 => by simp only [matchRefCmd_head_ne c2 x hc2]; rfl)
        e _ (by simp only [List.length_append, List.length_cons]; omega) he]
  · intro en hen
    constructor
    · unfold refBare
      rw [hen]
    · simp only [refAnchor]
      rw [hen]
  · intro hnone
    constructor
    · unfold refBare
      rw [hnone]
    · simp only [refAnchor]
      rw [hnone]

theorem refs_bare_in_math_linked_in_prose_witness :
    (S "\\begin\x7bgather*\x7d" : Str) ∈ mathBegins
    ∧ (S "\\end\x7bequation\x7d" : Str) ∈ mathEnds
    ∧ (S "\\Cref\x7b" : Str) ∈ refCmdToks
    ∧ (∀ x ∈ S "A ", x ≠ '\\') ∧ (∀ x ∈ S "x ", x ≠ '\\')
    ∧ (∀ x ∈ S " y", x ≠ '\\') ∧ (∀ x ∈ S " mid ", x ≠ '\\')
    ∧ (∀ x ∈ S " end", x ≠ '\\')
    ∧ (∀ x ∈ S "eq1", x ≠ '\\') ∧ (∀ x ∈ S "eq1", x ≠ cbr)
    ∧ (S "eq1" : Str) ≠ []
    ∧ (∀ en : LabelEntry,
        (fun s => if s = S "eq1"
          then some (⟨S "3.14", S "7", [], []⟩ : LabelEntry) else none) (S "eq1")
          = some en → ∀ x ∈ en.number, x ≠ '\\')
    ∧ (convertRefs
        (fun s => if s = S "eq1"
          then some (⟨S "3.14", S "7", [], []⟩ : LabelEntry) else none)
        (S "A " ++ (S "\\begin\x7bgather*\x7d" ++ (S "x " ++ (S "\\Cref\x7b" ++
          (S "eq1" ++ (cbr :: (S " y" ++ (S "\\end\x7bequation\x7d" ++
          (S " mid " ++ (S "\\Cref\x7b" ++ (S "eq1" ++ (cbr :: S " end"))))))))))))
      = S "A " ++ (S "\\begin\x7bgather*\x7d" ++ (S "x " ++
          (refBare (fun s => if s = S "eq1"
              then some (⟨S "3.14", S "7", [], []⟩ : LabelEntry) else none)
            (S "eq1")
          ++ (S " y" ++ (S "\\end\x7bequation\x7d" ++ (S " mid " ++
          (refAnchor (fun s => if s = S "eq1"
              then some (⟨S "3.14", S "7", [], []⟩ : LabelEntry) else none)
            (S "eq1")
          ++ S " end")))))))) :=
  ⟨by decide, by decide, by decide, by decide, by decide, by decide, by decide,
   by decide, by decide, by decide, by decide,
   by
     intro en hen
     have h2 : (⟨S "3.14", S "7", [], []⟩ : LabelEntry) = en := by
       simpa using hen
     rw [← h2]
     decide,
   (refs_bare_in_math_linked_in_prose
     (fun s => if s = S "eq1"
       then some (⟨S "3.14", S "7", [], []⟩ : LabelEntry) else none)
     (S "A ") (S "\\begin\x7bgather*\x7d") (S "x ") (S "\\Cref\x7b") (S "eq1")
     (S " y") (S "\\end\x7bequation\x7d") (S " mid ") (S " end")
     (by decide) (by decide) (by decide) (by decide) (by decide) (by decide)
     (by decide) (by decide) (by decide) (by decide) (by decide)
     (by
       intro en hen
       have h2 : (⟨S "3.14", S "7", [], []⟩ : LabelEntry) = en := by
         simpa using hen
       rw [← h2]
       decide)).1⟩

theorem nested_proofs_single_element_witness :
    (∀ c ∈ S "t ", c ≠ '\\') ∧ (∀ c ∈ S " u", c ≠ '\\')
    ∧ (extractProofs (fun _ => 7) (S "t " ++ (nestProof 2 ++ S " u"))).map
        (fun e => (e.startIndex, e.fullMatch))
      = [((S "t " : Str).length, nestProof 2)] :=
  ⟨by decide, by decide,
    (nested_proofs_single_element 1 (S "t ") (S " u") (fun _ => 7)
      (by decide) (by decide)).1⟩

end LatexSite
